import Mathlib

/-!
Verification development for the aflak dataflow engine.

The Rust sources are shallowly embedded: pure functions become Lean
functions, the per-output result cache becomes explicitly threaded state,
and recursion on the (possibly cyclic) graph structure is bounded by fuel
(`none` meaning fuel exhaustion, a model artifact distinct from any
behavior of the program). Code paths that panic in Rust are modelled by an
explicit `panicked` outcome so that panics can be distinguished from error
values returned to the caller.
-/

namespace Aflak

/-! ## Association list helpers

The Rust code stores the graph components in `HashMap`s. We model them as
association lists; `alookup` is `HashMap::get` and `aset` overwrites the
value stored at an existing key (leaving the list unchanged when the key
is absent, a case the Rust code guards with `expect`). -/

def alookup {α β : Type} [DecidableEq α] : List (α × β) → α → Option β
  | [], _ => none
  | (k', v') :: rest, k => if k = k' then some v' else alookup rest k

def aset {α β : Type} [DecidableEq α] (k : α) (v : β) : List (α × β) → List (α × β)
  | [] => []
  | (k', v') :: rest => if k = k' then (k', v) :: rest else (k', v') :: aset k v rest

/-! ## aflak_transforms: domain values and type tags

Embedding of `src/aflak_transforms/src/lib.rs`. The `f64` payloads are
modelled as uninterpreted IEEE-754 bit patterns and `Arc<Mutex<fitrs::Fits>>`
as an opaque shared handle: `get_type` never inspects payloads, so the
claims about type tags do not depend on their interpretation. -/

/-- An IEEE-754 double, kept as an uninterpreted bit pattern. -/
structure F64 where
  bits : Nat
deriving DecidableEq, Repr

/-- Opaque shared handle to an open FITS file (`Arc<Mutex<fitrs::Fits>>`). -/
structure FitsHandle where
  id : Nat
deriving DecidableEq, Repr

inductive IOType where
  | Integer
  | Float
  | Str
  | Fits
  | Image1d
  | Image2d
  | Image3d
deriving DecidableEq, Repr

inductive IOValue where
  | Integer (i : Int)
  | Float (f : F64)
  | Str (s : String)
  | Fits (h : FitsHandle)
  | Image1d (v : List F64)
  | Image2d (v : List (List F64))
  | Image3d (v : List (List (List F64)))
deriving DecidableEq, Repr

/-- `impl cake::TypeContent for IOValue` — return the type of each `IOValue`,
exactly as written in `src/aflak_transforms/src/lib.rs` lines 33–46
(including the arm on line 42 that sends `Image2d` to `IOType::Image3d`). -/
def IOValue.get_type : IOValue → IOType
  | .Integer _ => .Integer
  | .Float _ => .Float
  | .Str _ => .Str
  | .Fits _ => .Fits
  | .Image1d _ => .Image1d
  | .Image2d _ => .Image3d
  | .Image3d _ => .Image3d

/-! ## Old transformation caller (src/src/transform.rs)

Embedding of the `Transformation` / `TransformationCaller` of
`src/src/transform.rs`. `feed` and `call` panic on a wrong input tag and
on a wrong input count (the file carries the comment `TODO: Do not
panic!`); panics are modelled as an explicit outcome. `feed_ref` is
behaviorally identical to `feed` (it differs only in `Cow` ownership) and
is covered by the same definition. -/

namespace V0

structure Transformation (T TY : Type) where
  name : String
  input : List TY
  output : List TY
  algorithm : List T → List T

structure TransformationCaller (T TY : Type) where
  expected_input_types : List TY
  algorithm : List T → List T
  input : List T

inductive FeedOutcome (T TY : Type) where
  | panicked (msg : String)
  | ok (c : TransformationCaller T TY)

inductive CallOutcome (T : Type) where
  | panicked (msg : String)
  | ok (output : List T)

def Transformation.start {T TY : Type} (t : Transformation T TY) : TransformationCaller T TY :=
  { expected_input_types := t.input
    algorithm := t.algorithm
    input := [] }

/-- `TransformationCaller::feed` (and `feed_ref`): check the next expected
type against `get_type` of the fed value; panic on exhausted expected types
(`expect("Not all type consumed")`) or on a tag mismatch
(`panic!("Wrong type on feeding algorithm!")`). -/
def TransformationCaller.feed {T TY : Type} [DecidableEq TY] (get_type : T → TY)
    (c : TransformationCaller T TY) (v : T) : FeedOutcome T TY :=
  match c.expected_input_types with
  | [] => .panicked "Not all type consumed"
  | expected :: rest =>
    if get_type v ≠ expected then
      .panicked "Wrong type on feeding algorithm!"
    else
      .ok { c with expected_input_types := rest, input := c.input ++ [v] }

/-- `TransformationCaller::call`: panic if not all declared inputs were fed
(`panic!("Missing input arguments!")`), otherwise run the algorithm. -/
def TransformationCaller.call {T TY : Type} (c : TransformationCaller T TY) : CallOutcome T :=
  match c.expected_input_types with
  | _ :: _ => .panicked "Missing input arguments!"
  | [] => .ok (c.algorithm c.input)

end V0

/-! ## aflak_cake: Timed values (src/src/aflak_cake/src/timed.rs) -/

/-- `std::time::Instant`, modelled as an opaque tick count. -/
structure Instant where
  tick : Nat
deriving DecidableEq, Repr

/-- A smart pointer embedding the instant the contained value was created. -/
structure Timed (T : Type) where
  value : T
  created_on : Instant

/-- `Timed::from_instant`. -/
def Timed.from_instant {T : Type} (t : T) (created_on : Instant) : Timed T :=
  { value := t, created_on := created_on }

/-- `Timed::take`. -/
def Timed.take {T : Type} (t : Timed T) : T := t.value

/-- `Timed::map`: change the contained value by applying `f`; the instant
the value was created is not altered. -/
def Timed.map {T U : Type} (t : Timed T) (f : T → U) : Timed U :=
  { value := f t.value, created_on := t.created_on }

/-! ## aflak_cake: the DST graph (src/src/aflak_cake/src/dst/mod.rs)

The cake crate is generic over the value type `T` and the inner error type
`E`. Type tags in this version of the crate are the variant names of `T`
(`TypeId = &'static str`), so input and output type lists are lists of
strings. -/

namespace Cake

structure TransformIdx where
  id : Nat
deriving DecidableEq, Repr

structure OutputId where
  id : Nat
deriving DecidableEq, Repr

/-- Uniquely identify an output of a transformation node. -/
structure Output where
  t_idx : TransformIdx
  output_i : Nat
deriving DecidableEq, Repr

/-- Uniquely identify an input of a node. -/
structure Input where
  t_idx : TransformIdx
  input_i : Nat
deriving DecidableEq, Repr

/-- `enum Algorithm<T, E>`: either a plain function or a constant carrying
precomputed output values. -/
inductive Algorithm (T E : Type) where
  | Function (f : List T → List (Except E T))
  | Constant (values : List T)

/-- `struct Transformation<T, E>`: name, ordered input tags each with an
optional default value, ordered output tags, and the algorithm. -/
structure Transformation (T E : Type) where
  name : String
  input : List (String × Option T)
  output : List String
  algorithm : Algorithm T E

/-- `struct MetaTransform<'t, T, E>`: a transform instance together with
its per-instance default-input overrides. -/
structure MetaTransform (T E : Type) where
  t : Transformation T E
  input_defaults : List (Option T)

/-- `MetaTransform::new`: derive the instance defaults from the
descriptor's declared defaults. -/
def MetaTransform.new {T E : Type} (t : Transformation T E) : MetaTransform T E :=
  { t := t, input_defaults := t.input.map (·.2) }

/-- `enum DSTError<E>`. Error messages are kept as fixed strings; the Rust
code formats the offending identifier into the message, which we elide. -/
inductive DSTError (E : Type) where
  | InvalidInput (msg : String)
  | InvalidOutput (msg : String)
  | DuplicateEdge (msg : String)
  | Cycle (msg : String)
  | IncompatibleTypes (msg : String)
  | MissingOutputID (msg : String)
  | ComputeError (msg : String)
  | InnerComputeError (e : E)
  | NothingDoneYet
deriving DecidableEq

/-- `struct DST<'t, T, E>`: transforms, edges (producer to list of fed
inputs, `InputList`), declared output sinks, and the per-output cache.
`HashMap`s are modelled as association lists; the iterators of the crate
enumerate entries in a stable order keyed by numeric id, so the lists are
kept in that canonical order. -/
structure DST (T E : Type) where
  transforms : List (TransformIdx × MetaTransform T E)
  edges : List (Output × List Input)
  outputs : List (OutputId × Option Output)
  cache : List (Output × Option T)

/-- `DST::new`. -/
def DST.new (T E : Type) : DST T E :=
  { transforms := [], edges := [], outputs := [], cache := [] }

def DST.get_transform {T E : Type} (dst : DST T E) (idx : TransformIdx) :
    Option (MetaTransform T E) :=
  alookup dst.transforms idx

/-- Modelled from the spec: `get_transform_dependencies` lives in
`dst/iterators.rs`, which is absent from src.  Per §4.4 step 3 it resolves
each input port of the transform, in declared input order, to the `Output`
driving it (`none` when the input is undriven). -/
def get_transform_dependencies {T E : Type} (dst : DST T E) (t_idx : TransformIdx) :
    List (Option Output) :=
  match alookup dst.transforms t_idx with
  | none => []
  | some mt =>
    (List.range mt.t.input.length).map fun i =>
      ((dst.edges.find? fun p => decide (Input.mk t_idx i ∈ p.2)).map (·.1))

/-! ## aflak_cake: the evaluator (src/aflak_cake/src/dst/compute.rs)

`_compute` mutates only the per-output cache slots (through the
`RwLock`s); that mutable state is threaded explicitly as `CState`, which
additionally records, as `calls`, the trace of transforms whose algorithm
was invoked — this makes "the algorithm was not invoked" a provable
statement.  The parallel `rayon::scope` fan-out writes each dependency
result into its own pre-indexed slot; it is modelled as a left-to-right
evaluation producing the same ordered result list (the spec permits
sequential evaluation because algorithms are pure).  Fuel bounds the
recursion; `none` is fuel exhaustion.  The `expect("Get output cache")` on
a missing cache slot is modelled as the `panicked` outcome.

The `Transformation::start/feed/call` caller used by `_compute` lives in
the crate's `transform.rs`, which is absent from src; following §4.1,
a `Function` algorithm applied to the fed values yields the per-output
results and a `Constant` yields its stored outputs directly. -/

structure CState (T : Type) where
  cache : List (Output × Option T)
  calls : List TransformIdx
deriving DecidableEq

inductive COutcome (T E : Type) where
  | ok (v : T)
  | err (e : DSTError E)
  | panicked (msg : String)
deriving DecidableEq

/-- Result of evaluating the dependencies of a transform: either a panic
propagated out of some dependency, or the ordered list of per-input
results. -/
inductive DepsResult (T E : Type) where
  | panicked (msg : String) (st : CState T)
  | done (results : List (Except (DSTError E) T)) (st : CState T)

/-- The cache/trace state a dependency evaluation finished in. -/
def DepsResult.state {T E : Type} : DepsResult T E → CState T
  | .panicked _ st => st
  | .done _ st => st

/-- Run one algorithm on the fed input values (§4.1: a constant skips the
feeding phase and yields its stored outputs). -/
def runAlgorithm {T E : Type} (alg : Algorithm T E) (inputs : List T) :
    List (Except E T) :=
  match alg with
  | .Function f => f inputs
  | .Constant values => values.map .ok

/-- The `for result in results { op.feed(result?); }` loop of `_compute`:
feed the dependency results in declared order, returning the first error
encountered (the `?` operator) and the fed values otherwise. -/
def feedAll {T E : Type} : List (Except (DSTError E) T) → Except (DSTError E) (List T)
  | [] => .ok []
  | r :: rs =>
    match r with
    | .error e => .error e
    | .ok v => (feedAll rs).map (v :: ·)

/-- Evaluate a dependency list with evaluator `f`, left to right, threading
the cache state.  An undriven input (a `none` entry) becomes the
`ComputeError "Missing dependency! Cannot compute."` result for its slot;
dependency errors are recorded in their slots and evaluation continues
(as the parallel fan-out computes every slot); a panic aborts. -/
def computeDepsWith {T E : Type}
    (f : CState T → Output → Option (COutcome T E × CState T)) :
    CState T → List (Option Output) → Option (DepsResult T E)
  | st, [] => some (.done [] st)
  | st, d :: ds =>
    let head : Option (COutcome T E × CState T) :=
      match d with
      | none => some (.err (.ComputeError "Missing dependency! Cannot compute."), st)
      | some o => f st o
    match head with
    | none => none
    | some (.panicked msg, st1) => some (.panicked msg st1)
    | some (.ok v, st1) =>
      match computeDepsWith f st1 ds with
      | none => none
      | some (.panicked msg st2) => some (.panicked msg st2)
      | some (.done rs st2) => some (.done (.ok v :: rs) st2)
    | some (.err e, st1) =>
      match computeDepsWith f st1 ds with
      | none => none
      | some (.panicked msg st2) => some (.panicked msg st2)
      | some (.done rs st2) => some (.done (.error e :: rs) st2)

/-- `DST::_compute` (src/aflak_cake/src/dst/compute.rs lines 11–54). -/
def _compute {T E : Type} (dst : DST T E) :
    Nat → CState T → Output → Option (COutcome T E × CState T)
  | 0, _, _ => none
  | fuel + 1, st, output =>
    match alookup dst.transforms output.t_idx with
    | none => some (.err (.ComputeError "Tranform not found!"), st)
    | some mt =>
      match alookup st.cache output with
      | none => some (.panicked "Get output cache", st)
      | some (some v) => some (.ok v, st)
      | some none =>
        let deps := get_transform_dependencies dst output.t_idx
        match computeDepsWith (_compute dst fuel) st deps with
        | none => none
        | some (.panicked msg st1) => some (.panicked msg, st1)
        | some (.done results st1) =>
          match feedAll results with
          | .error e => some (.err e, st1)
          | .ok vals =>
            let st2 : CState T := { st1 with calls := st1.calls ++ [output.t_idx] }
            match (runAlgorithm mt.t.algorithm vals).get? output.output_i with
            | none => some (.err (.ComputeError "No nth output received. This is a bug!"), st2)
            | some (.error e) => some (.err (.InnerComputeError e), st2)
            | some (.ok v) =>
              some (.ok v, { st2 with cache := aset output (some v) st2.cache })

/-- `DST::compute` (src/aflak_cake/src/dst/compute.rs lines 59–71). -/
def compute {T E : Type} (dst : DST T E) (fuel : Nat) (st : CState T)
    (output_id : OutputId) : Option (COutcome T E × CState T) :=
  match alookup dst.outputs output_id with
  | none => some (.err (.MissingOutputID "Output ID not found!"), st)
  | some none => some (.err (.MissingOutputID "Output ID is not attached!"), st)
  | some (some output) => _compute dst fuel st output

/-- The initial compute state of a `DST`: its cache, and no algorithm
invocations recorded. -/
def initState {T E : Type} (dst : DST T E) : CState T :=
  { cache := dst.cache, calls := [] }

/-- `o` directly depends on the producer `o'`: `o'` drives one of the
input ports of `o`'s transform (one of the entries `_compute` evaluates
as a dependency). -/
def depends {T E : Type} (dst : DST T E) (o o' : Output) : Prop :=
  some o' ∈ get_transform_dependencies dst o.t_idx

/-! ## aflak_cake: serialization (src/src/aflak_cake/src/export.rs)

`TransformId` in this version of the crate is `&'static str` and type tags
are variant names, so transform names and tags are strings.  The registry
(`NamedAlgorithms::get_transform`) is ambient in Rust; it is passed as an
explicit `String → Option (Transformation T E)` here, and `variant_name`
likewise as a `T → String`. -/

inductive SerialTransform (T : Type) where
  | Function (name : String)
  | Constant (values : List T)

inductive DeserTransform (T : Type) where
  | Function (name : String)
  | Constant (values : List T)
  | Phantom

/-- `SerialTransform::new`: a function transform serializes as its name,
a constant inline as its values. -/
def SerialTransform.new {T E : Type} (t : Transformation T E) : SerialTransform T :=
  match t.algorithm with
  | .Function _ => .Function t.name
  | .Constant c => .Constant c

/-- `SerialTransform` deserializes into `DeserTransform` unchanged (the
byte-level serde transport is not modelled). -/
def SerialTransform.toDeser {T : Type} : SerialTransform T → DeserTransform T
  | .Function n => .Function n
  | .Constant c => .Constant c

inductive IntoOutcome (T E : Type) where
  | panicked (msg : String)
  | ok (t : Transformation T E)

/-- `DeserTransform::into` (src/src/aflak_cake/src/export.rs lines 46–63):
resolve a `Function(name)` against the registry — `panic!("Transform '{}'
not found!")` when the lookup fails — and rebuild a constant transform
from its inline values, its output tags being the variant names of those
values. -/
def DeserTransform.into {T E : Type}
    (get_transform : String → Option (Transformation T E))
    (variant_name : T → String) : DeserTransform T → IntoOutcome T E
  | .Function name =>
    match get_transform name with
    | some t => .ok t
    | none => .panicked ("Transform " ++ name ++ " not found!")
  | .Constant constants =>
    .ok { name := "const"
          input := []
          output := constants.map variant_name
          algorithm := .Constant constants }
  | .Phantom => .panicked "PhantomData should not be used!"

/-- Flatten the grouped edge map into `(Output, Input)` pairs, producer
group by producer group — the order in which `edges_iter` yields them. -/
def flattenEdges (edges : List (Output × List Input)) : List (Output × Input) :=
  edges.flatMap fun p => p.2.map fun i => (p.1, i)

/-- `struct SerialDST<'d, T>`: vectors of transforms, edges and outputs. -/
structure SerialDST (T : Type) where
  transforms : List (TransformIdx × SerialTransform T)
  edges : List (Output × Input)
  outputs : List (OutputId × Option Output)

/-- `SerialDST::new`: collect `transforms_iter`, `edges_iter` and
`outputs_iter`.  The iterators live in `dst/iterators.rs`, which is absent
from src; per §4.3 they enumerate entries in the stable numeric-id order
in which the maps are kept here.  Note that `transforms_iter` yields the
bare `Transformation`, so per-instance `input_defaults` of the
`MetaTransform` are not serialized. -/
def SerialDST.new {T E : Type} (dst : DST T E) : SerialDST T :=
  { transforms := dst.transforms.map fun p => (p.1, SerialTransform.new p.2.t)
    edges := flattenEdges dst.edges
    outputs := dst.outputs }

/-- `struct DeserDST<T, E>`. -/
structure DeserDST (T : Type) where
  transforms : List (TransformIdx × DeserTransform T)
  edges : List (Output × Input)
  outputs : List (OutputId × Option Output)

def serialToDeser {T : Type} (s : SerialDST T) : DeserDST T :=
  { transforms := s.transforms.map fun p => (p.1, p.2.toDeser)
    edges := s.edges
    outputs := s.outputs }

/-! ## The import path

Modelled from the spec: the `DeserDST` loader and the Builder operations
it replays (`dst/build.rs`) are absent from src.  Per §4.5 the loader
resolves each serialized transform (an unknown `Function` name being a
recoverable `ImportError`), then replays `add_transform` / `connect` /
`attach_output` through the Builder so that all invariants are
re-established; any violation aborts the import.  The replay installs each
transform under its serialized index (edges and sinks reference those
indices).  `connect` performs the §4.2 checks: port bounds, type
compatibility, input not already driven, and the depth-first forward
cycle check.  Cache invalidation (§4.2) is not modelled: every import
starts from freshly installed empty cache slots and no claim under
verification concerns invalidation. -/

inductive ImportError (E : Type) where
  | TransformNotFound (name : String)
  | Build (e : DSTError E)

/-- Resolve one serialized transform against the registry (§4.5). -/
def resolveOne {T E : Type} (reg : String → Option (Transformation T E))
    (variant_name : T → String) : DeserTransform T → Except (ImportError E) (Transformation T E)
  | .Function name =>
    match reg name with
    | some t => .ok t
    | none => .error (.TransformNotFound name)
  | .Constant constants =>
    .ok { name := "const"
          input := []
          output := constants.map variant_name
          algorithm := .Constant constants }
  | .Phantom => .error (.TransformNotFound "PhantomData")

def resolveTransforms {T E : Type} (reg : String → Option (Transformation T E))
    (variant_name : T → String) :
    List (TransformIdx × DeserTransform T) →
      Except (ImportError E) (List (TransformIdx × Transformation T E))
  | [] => .ok []
  | (idx, dt) :: rest =>
    match resolveOne reg variant_name dt with
    | .error e => .error e
    | .ok t => (resolveTransforms reg variant_name rest).map ((idx, t) :: ·)

/-- `add_transform`, replayed with the serialized index: install the
instance (defaults derived from the descriptor) and an empty cache slot
for each declared output port (§4.2). -/
def addTransformWithIdx {T E : Type} (dst : DST T E) (idx : TransformIdx)
    (t : Transformation T E) : DST T E :=
  { dst with
    transforms := dst.transforms ++ [(idx, MetaTransform.new t)]
    cache := dst.cache ++ (List.range t.output.length).map fun k => (⟨idx, k⟩, none) }

/-- Is this input already driven by some producer? -/
def alreadyDriven (edges : List (Output × List Input)) (input : Input) : Bool :=
  (flattenEdges edges).any fun p => decide (p.2 = input)

/-- Transforms fed directly by an output of `t`. -/
def forwardNeighbors (edges : List (Output × List Input)) (t : TransformIdx) :
    List TransformIdx :=
  (flattenEdges edges).filterMap fun p =>
    if p.1.t_idx = t then some p.2.t_idx else none

/-- The §4.2 cycle check: depth-first forward walk from `src`, bounded by
fuel, returning whether `target` is encountered. -/
def reachesWithin (edges : List (Output × List Input)) :
    Nat → TransformIdx → TransformIdx → Bool
  | 0, _, _ => false
  | fuel + 1, src, target =>
    decide (src = target) ||
      (forwardNeighbors edges src).any fun n => reachesWithin edges fuel n target

/-- Append an input to the `InputList` stored at an existing producer key. -/
def aappend {α β : Type} [DecidableEq α] (k : α) (i : β) :
    List (α × List β) → List (α × List β)
  | [] => []
  | (k', l) :: rest =>
    if k = k' then (k', l ++ [i]) :: rest else (k', l) :: aappend k i rest

/-- Record an edge: push onto the producer's existing `InputList`, or
create a fresh singleton list for a new producer. -/
def addEdge (edges : List (Output × List Input)) (o : Output) (i : Input) :
    List (Output × List Input) :=
  if (alookup edges o).isSome then aappend o i edges else edges ++ [(o, [i])]

/-- `connect` (§4.2): atomically verify port bounds, type compatibility,
input not already driven and acyclicity, then insert the edge. -/
def connect {T E : Type} (dst : DST T E) (output : Output) (input : Input) :
    Except (DSTError E) (DST T E) :=
  match alookup dst.transforms output.t_idx with
  | none => .error (.InvalidOutput "Output does not exist!")
  | some pmt =>
    match alookup dst.transforms input.t_idx with
    | none => .error (.InvalidInput "Input does not exist!")
    | some cmt =>
      match pmt.t.output.get? output.output_i with
      | none => .error (.InvalidOutput "Output index out of bounds!")
      | some out_ty =>
        match cmt.t.input.get? input.input_i with
        | none => .error (.InvalidInput "Input index out of bounds!")
        | some in_ty =>
          if out_ty ≠ in_ty.1 then .error (.IncompatibleTypes "Incompatible types!")
          else if alreadyDriven dst.edges input then
            .error (.DuplicateEdge "Input already driven!")
          else if reachesWithin dst.edges (dst.transforms.length + 1)
              input.t_idx output.t_idx then
            .error (.Cycle "Connecting would create a cycle!")
          else .ok { dst with edges := addEdge dst.edges output input }

/-- Restore one serialized sink: `create_output` for a detached sink,
`attach_output` (with its port-existence check) for an attached one. -/
def restoreOutput {T E : Type} (dst : DST T E) (oid : OutputId) (mo : Option Output) :
    Except (DSTError E) (DST T E) :=
  match mo with
  | none => .ok { dst with outputs := dst.outputs ++ [(oid, none)] }
  | some o =>
    match alookup dst.transforms o.t_idx with
    | none => .error (.InvalidOutput "Output does not exist!")
    | some mt =>
      if o.output_i < mt.t.output.length then
        .ok { dst with outputs := dst.outputs ++ [(oid, some o)] }
      else .error (.InvalidOutput "Output index out of bounds!")

def replayEdges {T E : Type} :
    DST T E → List (Output × Input) → Except (DSTError E) (DST T E)
  | dst, [] => .ok dst
  | dst, (o, i) :: rest =>
    match connect dst o i with
    | .error e => .error e
    | .ok dst1 => replayEdges dst1 rest

def replayOutputs {T E : Type} :
    DST T E → List (OutputId × Option Output) → Except (DSTError E) (DST T E)
  | dst, [] => .ok dst
  | dst, (oid, mo) :: rest =>
    match restoreOutput dst oid mo with
    | .error e => .error e
    | .ok dst1 => replayOutputs dst1 rest

/-- The full import (§4.5): resolve every transform, install them with
their serialized indices, then replay edges and sinks through the Builder
checks. -/
def importDST {T E : Type} (reg : String → Option (Transformation T E))
    (variant_name : T → String) (d : DeserDST T) : Except (ImportError E) (DST T E) :=
  match resolveTransforms reg variant_name d.transforms with
  | .error e => .error e
  | .ok ts =>
    let dst1 := ts.foldl (fun dst p => addTransformWithIdx dst p.1 p.2) (DST.new T E)
    match replayEdges dst1 d.edges with
    | .error e => .error (.Build e)
    | .ok dst2 =>
      match replayOutputs dst2 d.outputs with
      | .error e => .error (.Build e)
      | .ok dst3 => .ok dst3

/-! ### Validity conditions used by the round-trip theorem

These spell out, over the embedded data, the spec's graph invariants and
the registry-coherence conditions under which a serialized graph can be
reconstructed. -/

/-- One transform entry survives the serialization round trip: its
instance defaults are the descriptor's declared defaults (overrides are
not serialized), a function descriptor is found in the registry under its
own name, and a constant descriptor has exactly the shape the loader
rebuilds from the inline values. -/
def entryRoundTrips {T E : Type} (reg : String → Option (Transformation T E))
    (variant_name : T → String) (p : TransformIdx × MetaTransform T E) : Prop :=
  p.2.input_defaults = p.2.t.input.map (·.2) ∧
  (∀ f, p.2.t.algorithm = .Function f → reg p.2.t.name = some p.2.t) ∧
  (∀ c, p.2.t.algorithm = .Constant c →
    p.2.t = { name := "const"
              input := []
              output := c.map variant_name
              algorithm := .Constant c })

/-- Port bounds and type compatibility of one edge (invariants 1 and 3). -/
def edgeOk {T E : Type} (trs : List (TransformIdx × MetaTransform T E))
    (p : Output × Input) : Bool :=
  match alookup trs p.1.t_idx, alookup trs p.2.t_idx with
  | some pmt, some cmt =>
    match pmt.t.output.get? p.1.output_i, cmt.t.input.get? p.2.input_i with
    | some out_ty, some in_ty => decide (out_ty = in_ty.1)
    | _, _ => false
  | _, _ => false

/-- Sink consistency of one output entry (invariant 5). -/
def sinkOk {T E : Type} (trs : List (TransformIdx × MetaTransform T E))
    (q : OutputId × Option Output) : Bool :=
  match q.2 with
  | none => true
  | some o =>
    match alookup trs o.t_idx with
    | none => false
    | some mt => decide (o.output_i < mt.t.output.length)

/-- The transform-level forward edge relation induced by the edge map. -/
def edgeRel (edges : List (Output × List Input)) (t t' : TransformIdx) : Prop :=
  ∃ p ∈ flattenEdges edges, p.1.t_idx = t ∧ p.2.t_idx = t'

end Cake

/-! ## Concrete instances for the end-to-end scenarios

Modelled from the spec: the test support module of
`src/aflak_cake/tests/dst.rs` (its `support` directory) is absent from
src.  Scenario S1 fixes the semantics of the support transforms:
`get1() → Integer(1)`, `plus1(Integer) → Integer`, `minus1(Integer) →
Integer`, over a value type with an `Integer` variant.  The inner error
type is taken to be `String`. -/

inductive AlgoContent where
  | Integer (i : Int)
  | Image3d (img : List (List (List Int)))
deriving DecidableEq, Repr

def AlgoContent.variant_name : AlgoContent → String
  | .Integer _ => "Integer"
  | .Image3d _ => "Image3d"

def get1 : Cake.Transformation AlgoContent String :=
  { name := "get1"
    input := []
    output := ["Integer"]
    algorithm := .Function fun _ => [.ok (.Integer 1)] }

def plus1 : Cake.Transformation AlgoContent String :=
  { name := "plus1"
    input := [("Integer", none)]
    output := ["Integer"]
    algorithm := .Function fun vs =>
      match vs with
      | [.Integer i] => [.ok (.Integer (i + 1))]
      | _ => [.error "unexpected input"] }

def minus1 : Cake.Transformation AlgoContent String :=
  { name := "minus1"
    input := [("Integer", none)]
    output := ["Integer"]
    algorithm := .Function fun vs =>
      match vs with
      | [.Integer i] => [.ok (.Integer (i - 1))]
      | _ => [.error "unexpected input"] }

/-- The S1 graph of `test_make_dst_and_iterate_dependencies`
(src/aflak_cake/tests/dst.rs lines 29–41): `a=get1, b=minus1, c=plus1,
d=plus1, e=plus1` (minted indices 1..5), edges `a→c, a→b, c→e, c→d`,
sinks `out1 = Output(d,0)` (OutputId 1) and `out2 = Output(b,0)`
(OutputId 2), and an empty cache slot per declared output port. -/
def dstS1 : Cake.DST AlgoContent String :=
  { transforms :=
      [ (⟨1⟩, Cake.MetaTransform.new get1)
      , (⟨2⟩, Cake.MetaTransform.new minus1)
      , (⟨3⟩, Cake.MetaTransform.new plus1)
      , (⟨4⟩, Cake.MetaTransform.new plus1)
      , (⟨5⟩, Cake.MetaTransform.new plus1) ]
    edges :=
      [ (⟨⟨1⟩, 0⟩, [⟨⟨3⟩, 0⟩, ⟨⟨2⟩, 0⟩])
      , (⟨⟨3⟩, 0⟩, [⟨⟨5⟩, 0⟩, ⟨⟨4⟩, 0⟩]) ]
    outputs :=
      [ (⟨1⟩, some ⟨⟨4⟩, 0⟩)
      , (⟨2⟩, some ⟨⟨2⟩, 0⟩) ]
    cache :=
      [ (⟨⟨1⟩, 0⟩, none), (⟨⟨2⟩, 0⟩, none), (⟨⟨3⟩, 0⟩, none)
      , (⟨⟨4⟩, 0⟩, none), (⟨⟨5⟩, 0⟩, none) ] }

/-- The compute state after pulling `out1` on the S1 graph: the `get1`,
first `plus1` and second `plus1` outputs are cached and their algorithms
were invoked once each, in dependency order. -/
def stS1after1 : Cake.CState AlgoContent :=
  { cache :=
      [ (⟨⟨1⟩, 0⟩, some (.Integer 1)), (⟨⟨2⟩, 0⟩, none)
      , (⟨⟨3⟩, 0⟩, some (.Integer 2)), (⟨⟨4⟩, 0⟩, some (.Integer 3))
      , (⟨⟨5⟩, 0⟩, none) ]
    calls := [⟨1⟩, ⟨3⟩, ⟨4⟩] }

/-- The compute state after also pulling `out2`: only `minus1` ran in
addition, reusing the cached `get1` output. -/
def stS1after2 : Cake.CState AlgoContent :=
  { cache :=
      [ (⟨⟨1⟩, 0⟩, some (.Integer 1)), (⟨⟨2⟩, 0⟩, some (.Integer 0))
      , (⟨⟨3⟩, 0⟩, some (.Integer 2)), (⟨⟨4⟩, 0⟩, some (.Integer 3))
      , (⟨⟨5⟩, 0⟩, none) ]
    calls := [⟨1⟩, ⟨3⟩, ⟨4⟩, ⟨2⟩] }

/-- A source transform whose algorithm reports an inner error. -/
def fail0 : Cake.Transformation AlgoContent String :=
  { name := "fail0"
    input := []
    output := ["Integer"]
    algorithm := .Function fun _ => [.error "boom"] }

/-- A one-node graph whose only transform errors: its single sink observes
`Output(1,0)`. -/
def dstFail : Cake.DST AlgoContent String :=
  { transforms := [(⟨1⟩, Cake.MetaTransform.new fail0)]
    edges := []
    outputs := [(⟨1⟩, some ⟨⟨1⟩, 0⟩)]
    cache := [(⟨⟨1⟩, 0⟩, none)] }

/-- `fail0 → plus1`: the dependency of `plus1` errors. -/
def dstFailChain : Cake.DST AlgoContent String :=
  { transforms := [(⟨1⟩, Cake.MetaTransform.new fail0), (⟨2⟩, Cake.MetaTransform.new plus1)]
    edges := [(⟨⟨1⟩, 0⟩, [⟨⟨2⟩, 0⟩])]
    outputs := [(⟨1⟩, some ⟨⟨2⟩, 0⟩)]
    cache := [(⟨⟨1⟩, 0⟩, none), (⟨⟨2⟩, 0⟩, none)] }

/-- A transform declaring two outputs whose algorithm yields only one — the
"missing nth output" structural defect. -/
def short2 : Cake.Transformation AlgoContent String :=
  { name := "short2"
    input := []
    output := ["Integer", "Integer"]
    algorithm := .Function fun _ => [.ok (.Integer 1)] }

def dstShort : Cake.DST AlgoContent String :=
  { transforms := [(⟨1⟩, Cake.MetaTransform.new short2)]
    edges := []
    outputs := [(⟨1⟩, some ⟨⟨1⟩, 1⟩)]
    cache := [(⟨⟨1⟩, 0⟩, none), (⟨⟨1⟩, 1⟩, none)] }

/-- A `plus1` variant declaring a default input value in its descriptor. -/
def plus1d : Cake.Transformation AlgoContent String :=
  { name := "plus1d"
    input := [("Integer", some (.Integer 0))]
    output := ["Integer"]
    algorithm := .Function fun vs =>
      match vs with
      | [.Integer i] => [.ok (.Integer (i + 1))]
      | _ => [.error "unexpected input"] }

/-- The ambient transform registry holding the scenario transforms. -/
def regS1 : String → Option (Cake.Transformation AlgoContent String) := fun name =>
  if name = "get1" then some get1
  else if name = "plus1" then some plus1
  else if name = "minus1" then some minus1
  else if name = "plus1d" then some plus1d
  else none

/-- A valid one-node graph whose instance default was overridden through
`write_default` (instance default `Integer 5` against the descriptor's
`Integer 0`). -/
def G0 : Cake.DST AlgoContent String :=
  { transforms := [(⟨1⟩, { t := plus1d, input_defaults := [some (.Integer 5)] })]
    edges := []
    outputs := []
    cache := [(⟨⟨1⟩, 0⟩, none)] }

/-- What importing the serialized form of `G0` rebuilds: the same
descriptor, but instance defaults re-derived from the descriptor. -/
def G0import : Cake.DST AlgoContent String :=
  { transforms := [(⟨1⟩, { t := plus1d, input_defaults := [some (.Integer 0)] })]
    edges := []
    outputs := []
    cache := [(⟨⟨1⟩, 0⟩, none)] }

/-- The per-instance default values stored for a transform of a graph. -/
def defaultsOf {T E : Type} (dst : Cake.DST T E) (idx : Cake.TransformIdx) :
    Option (List (Option T)) :=
  (alookup dst.transforms idx).map (·.input_defaults)

/-- `plus1` over the old (`src/src/transform.rs`) transformation type,
instantiated at `IOValue` as `aflak_transforms` does. -/
def plus1V0 : V0.Transformation IOValue IOType :=
  { name := "plus1"
    input := [.Integer]
    output := [.Integer]
    algorithm := fun vs =>
      match vs with
      | [.Integer i] => [.Integer (i + 1)]
      | _ => [] }

/-- A zero-input transform over the old transformation type. -/
def get1V0 : V0.Transformation IOValue IOType :=
  { name := "get1"
    input := []
    output := [.Integer]
    algorithm := fun _ => [.Integer 1] }

/-! # Proofs -/

/-! ## Association list lemmas -/

theorem alookup_aset_same {α β : Type} [DecidableEq α] (k : α) (v : β) (l : List (α × β))
    (h : (alookup l k).isSome) : alookup (aset k v l) k = some v := by
  induction l with
  | nil => simp [alookup] at h
  | cons p rest ih =>
    obtain ⟨k', v'⟩ := p
    by_cases hk : k = k'
    · simp [aset, alookup, hk]
    · simp [aset, alookup, hk] at h ⊢
      exact ih h

theorem alookup_aset_ne {α β : Type} [DecidableEq α] (k k' : α) (v : β) (l : List (α × β))
    (h : k' ≠ k) : alookup (aset k v l) k' = alookup l k' := by
  induction l with
  | nil => simp [aset]
  | cons p rest ih =>
    obtain ⟨k'', v''⟩ := p
    by_cases hk : k = k''
    · subst hk
      simp [aset, alookup, h]
    · simp [aset, alookup, hk]
      by_cases hk2 : k' = k''
      · simp [alookup, hk2]
      · simp [alookup, hk2, ih]

theorem alookup_aset_isSome {α β : Type} [DecidableEq α] (k k' : α) (v : β) (l : List (α × β)) :
    (alookup (aset k v l) k').isSome = (alookup l k').isSome := by
  by_cases h : k' = k
  · subst h
    induction l with
    | nil => simp [aset]
    | cons p rest ih =>
      obtain ⟨k'', v''⟩ := p
      by_cases hk : k' = k''
      · simp [aset, alookup, hk]
      · simp [aset, alookup, hk, ih]
  · rw [alookup_aset_ne _ _ _ _ h]

/-! ## Evaluator lemmas

Transition properties of `_compute`, proved by induction on fuel; the
dependency phase is handled by a lifting lemma for `computeDepsWith`
generic in the state relation. -/

theorem computeDepsWith_rel {T E : Type} (R : Cake.CState T → Cake.CState T → Prop)
    (hrefl : ∀ st, R st st)
    (htrans : ∀ a b c, R a b → R b c → R a c)
    (f : Cake.CState T → Cake.Output → Option (Cake.COutcome T E × Cake.CState T))
    (hf : ∀ st o r st', f st o = some (r, st') → R st st') :
    ∀ (ds : List (Option Cake.Output)) (st : Cake.CState T) (res : Cake.DepsResult T E),
      Cake.computeDepsWith f st ds = some res → R st res.state := by
  intro ds
  induction ds with
  | nil =>
    intro st res h
    simp only [Cake.computeDepsWith, Option.some.injEq] at h
    subst h
    exact hrefl st
  | cons d ds ih =>
    intro st res h
    simp only [Cake.computeDepsWith] at h
    cases d with
    | none =>
      simp only at h
      cases hrec : Cake.computeDepsWith f st ds with
      | none => rw [hrec] at h; simp at h
      | some res' =>
        rw [hrec] at h
        cases res' with
        | panicked msg st2 =>
          simp only [Option.some.injEq] at h
          subst h
          have := ih st _ hrec
          simpa [Cake.DepsResult.state] using this
        | done rs st2 =>
          simp only [Option.some.injEq] at h
          subst h
          have := ih st _ hrec
          simpa [Cake.DepsResult.state] using this
    | some o =>
      simp only at h
      cases hfo : f st o with
      | none => rw [hfo] at h; simp at h
      | some pr =>
        obtain ⟨r, st1⟩ := pr
        rw [hfo] at h
        have h1 : R st st1 := hf st o r st1 hfo
        cases r with
        | panicked msg =>
          simp only [Option.some.injEq] at h
          subst h
          exact h1
        | ok v =>
          simp only at h
          cases hrec : Cake.computeDepsWith f st1 ds with
          | none => rw [hrec] at h; simp at h
          | some res' =>
            rw [hrec] at h
            cases res' with
            | panicked msg st2 =>
              simp only [Option.some.injEq] at h
              subst h
              refine htrans _ _ _ h1 ?_
              have := ih st1 _ hrec
              simpa [Cake.DepsResult.state] using this
            | done rs st2 =>
              simp only [Option.some.injEq] at h
              subst h
              refine htrans _ _ _ h1 ?_
              have := ih st1 _ hrec
              simpa [Cake.DepsResult.state] using this
        | err e =>
          simp only at h
          cases hrec : Cake.computeDepsWith f st1 ds with
          | none => rw [hrec] at h; simp at h
          | some res' =>
            rw [hrec] at h
            cases res' with
            | panicked msg st2 =>
              simp only [Option.some.injEq] at h
              subst h
              refine htrans _ _ _ h1 ?_
              have := ih st1 _ hrec
              simpa [Cake.DepsResult.state] using this
            | done rs st2 =>
              simp only [Option.some.injEq] at h
              subst h
              refine htrans _ _ _ h1 ?_
              have := ih st1 _ hrec
              simpa [Cake.DepsResult.state] using this

/-- `_compute` never creates or removes cache slots: the domain of the
cache is preserved by evaluation. -/
theorem _compute_domain {T E : Type} (dst : Cake.DST T E) :
    ∀ (fuel : Nat) (st : Cake.CState T) (o : Cake.Output) (r : Cake.COutcome T E)
      (st' : Cake.CState T),
      Cake._compute dst fuel st o = some (r, st') →
      ∀ k, (alookup st'.cache k).isSome = (alookup st.cache k).isSome := by
  intro fuel
  induction fuel with
  | zero =>
    intro st o r st' h k
    simp [Cake._compute] at h
  | succ fuel ih =>
    intro st o r st' h k
    rw [Cake._compute] at h
    cases hT : alookup dst.transforms o.t_idx with
    | none =>
      rw [hT] at h
      simp only [Option.some.injEq, Prod.mk.injEq] at h
      rw [h.2]
    | some mt =>
      rw [hT] at h
      cases hC : alookup st.cache o with
      | none =>
        rw [hC] at h
        simp only [Option.some.injEq, Prod.mk.injEq] at h
        rw [h.2]
      | some slot =>
        rw [hC] at h
        cases slot with
        | some v =>
          simp only [Option.some.injEq, Prod.mk.injEq] at h
          rw [h.2]
        | none =>
          simp only at h
          cases hD : Cake.computeDepsWith (Cake._compute dst fuel) st
              (Cake.get_transform_dependencies dst o.t_idx) with
          | none => rw [hD] at h; simp at h
          | some res =>
            rw [hD] at h
            cases res with
            | panicked msg st1 =>
              simp only [Option.some.injEq, Prod.mk.injEq] at h
              obtain ⟨-, rfl⟩ := h
              have hdom := computeDepsWith_rel
                (fun a b => ∀ k, (alookup b.cache k).isSome = (alookup a.cache k).isSome)
                (fun st k => rfl)
                (fun a b c h1 h2 k => (h2 k).trans (h1 k))
                (Cake._compute dst fuel)
                (fun st o r st' hcall => ih st o r st' hcall)
                _ st _ hD
              simp only [Cake.DepsResult.state] at hdom
              exact hdom k
            | done results st1 =>
              simp only at h
              have hdom := computeDepsWith_rel
                (fun a b => ∀ k, (alookup b.cache k).isSome = (alookup a.cache k).isSome)
                (fun st k => rfl)
                (fun a b c h1 h2 k => (h2 k).trans (h1 k))
                (Cake._compute dst fuel)
                (fun st o r st' hcall => ih st o r st' hcall)
                _ st _ hD
              simp only [Cake.DepsResult.state] at hdom
              cases hF : Cake.feedAll results with
              | error e =>
                rw [hF] at h
                simp only [Option.some.injEq, Prod.mk.injEq] at h
                obtain ⟨-, rfl⟩ := h
                exact hdom k
              | ok vals =>
                rw [hF] at h
                simp only at h
                cases hN : (Cake.runAlgorithm mt.t.algorithm vals).get? o.output_i with
                | none =>
                  rw [hN] at h
                  simp only [Option.some.injEq, Prod.mk.injEq] at h
                  obtain ⟨-, rfl⟩ := h
                  exact hdom k
                | some sel =>
                  rw [hN] at h
                  cases sel with
                  | error e =>
                    simp only [Option.some.injEq, Prod.mk.injEq] at h
                    obtain ⟨-, rfl⟩ := h
                    exact hdom k
                  | ok v =>
                    simp only [Option.some.injEq, Prod.mk.injEq] at h
                    obtain ⟨-, rfl⟩ := h
                    simp only [alookup_aset_isSome]
                    exact hdom k

/-- When `_compute` returns `ok v`, the transform exists and the cache
slot of the evaluated output holds `v` in the final state (either it was
the cache hit, or the success wrote it). -/
theorem _compute_ok_cached {T E : Type} (dst : Cake.DST T E)
    (fuel : Nat) (st : Cake.CState T) (o : Cake.Output) (v : T) (st' : Cake.CState T)
    (h : Cake._compute dst fuel st o = some (.ok v, st')) :
    (alookup dst.transforms o.t_idx).isSome ∧ alookup st'.cache o = some (some v) := by
  cases fuel with
  | zero => simp [Cake._compute] at h
  | succ fuel =>
    rw [Cake._compute] at h
    cases hT : alookup dst.transforms o.t_idx with
    | none =>
      rw [hT] at h
      exact absurd h (by simp)
    | some mt =>
      rw [hT] at h
      refine ⟨by simp, ?_⟩
      cases hC : alookup st.cache o with
      | none =>
        rw [hC] at h
        exact absurd h (by simp)
      | some slot =>
        rw [hC] at h
        cases slot with
        | some w =>
          simp only [Option.some.injEq, Prod.mk.injEq, Cake.COutcome.ok.injEq] at h
          rw [← h.2, ← h.1]
          exact hC
        | none =>
          simp only at h
          cases hD : Cake.computeDepsWith (Cake._compute dst fuel) st
              (Cake.get_transform_dependencies dst o.t_idx) with
          | none => rw [hD] at h; exact absurd h (by simp)
          | some res =>
            rw [hD] at h
            cases res with
            | panicked msg st1 => simp at h
            | done results st1 =>
              simp only at h
              cases hF : Cake.feedAll results with
              | error e => rw [hF] at h; simp at h
              | ok vals =>
                rw [hF] at h
                simp only at h
                cases hN : (Cake.runAlgorithm mt.t.algorithm vals).get? o.output_i with
                | none => rw [hN] at h; exact absurd h (by simp)
                | some sel =>
                  rw [hN] at h
                  cases sel with
                  | error e => exact absurd h (by simp)
                  | ok w =>
                    simp only [Option.some.injEq, Prod.mk.injEq,
                      Cake.COutcome.ok.injEq] at h
                    obtain ⟨rfl, rfl⟩ := h
                    have hdom : (alookup st1.cache o).isSome := by
                      have := computeDepsWith_rel
                        (fun a b => ∀ k, (alookup b.cache k).isSome
                          = (alookup a.cache k).isSome)
                        (fun st k => rfl)
                        (fun a b c h1 h2 k => (h2 k).trans (h1 k))
                        (Cake._compute dst fuel)
                        (fun st o r st' hcall => _compute_domain dst fuel st o r st' hcall)
                        _ st (Cake.DepsResult.done results st1) hD o
                      simp only [Cake.DepsResult.state] at this
                      rw [this, hC]
                      rfl
                    exact alookup_aset_same o (some w) st1.cache hdom

/-! ## C3: cache soundness -/

/-- **C3.**  If `compute(s)` succeeds, a second `compute(s)` with no
intervening mutation returns the same value *and the same state*: the
cached clone is returned at the reader check, so no cache entry changes
and no further transform algorithm is invoked (the invocation trace is
unchanged). -/
theorem compute_cache_soundness {T E : Type} (dst : Cake.DST T E)
    (fuel fuel' : Nat) (st st' : Cake.CState T) (v : T) (oid : Cake.OutputId)
    (h : Cake.compute dst fuel st oid = some (.ok v, st'))
    (hf : 0 < fuel') :
    Cake.compute dst fuel' st' oid = some (.ok v, st') := by
  unfold Cake.compute at h ⊢
  cases hO : alookup dst.outputs oid with
  | none => rw [hO] at h; exact absurd h (by simp)
  | some mo =>
    rw [hO] at h
    cases mo with
    | none => exact absurd h (by simp)
    | some out =>
      simp only at h ⊢
      obtain ⟨hT, hC⟩ := _compute_ok_cached dst fuel st out v st' h
      obtain ⟨fuel'', rfl⟩ : ∃ m, fuel' = m + 1 := by
        cases fuel' with
        | zero => exact absurd hf (by simp)
        | succ m => exact ⟨m, rfl⟩
      rw [Cake._compute]
      obtain ⟨mt, hmt⟩ := Option.isSome_iff_exists.mp hT
      rw [hmt, hC]

theorem compute_cache_soundness_witness :
    Cake.compute dstS1 10 (Cake.initState dstS1) ⟨1⟩
        = some (.ok (.Integer 3), stS1after1) ∧
    Cake.compute dstS1 1 stS1after1 ⟨1⟩ = some (.ok (.Integer 3), stS1after1) :=
  ⟨by decide,
   compute_cache_soundness dstS1 10 1 (Cake.initState dstS1) stS1after1
     (.Integer 3) ⟨1⟩ (by decide) (by decide)⟩

/-! ## C4: errors are never cached -/

/-- Writes performed during a dependency phase stay within the dependency
cones of the evaluated dependencies. -/
theorem computeDepsWith_frame {T E : Type} (dst : Cake.DST T E)
    (f : Cake.CState T → Cake.Output → Option (Cake.COutcome T E × Cake.CState T))
    (hf : ∀ st o r st', f st o = some (r, st') →
      ∀ k, alookup st'.cache k ≠ alookup st.cache k →
        Relation.ReflTransGen (Cake.depends dst) o k) :
    ∀ (ds : List (Option Cake.Output)) (st : Cake.CState T) (res : Cake.DepsResult T E),
      Cake.computeDepsWith f st ds = some res →
      ∀ k, alookup res.state.cache k ≠ alookup st.cache k →
        ∃ o, some o ∈ ds ∧ Relation.ReflTransGen (Cake.depends dst) o k := by
  intro ds
  induction ds with
  | nil =>
    intro st res h k hk
    simp only [Cake.computeDepsWith, Option.some.injEq] at h
    subst h
    exact absurd rfl hk
  | cons d ds ih =>
    intro st res h k hk
    simp only [Cake.computeDepsWith] at h
    cases d with
    | none =>
      simp only at h
      cases hrec : Cake.computeDepsWith f st ds with
      | none => rw [hrec] at h; simp at h
      | some res' =>
        rw [hrec] at h
        have hst : res.state = res'.state := by
          cases res' with
          | panicked msg st2 =>
            simp only [Option.some.injEq] at h
            subst h
            rfl
          | done rs st2 =>
            simp only [Option.some.injEq] at h
            subst h
            rfl
        rw [hst] at hk
        obtain ⟨o, ho, hrtg⟩ := ih st res' hrec k hk
        exact ⟨o, List.mem_cons_of_mem _ ho, hrtg⟩
    | some o =>
      simp only at h
      cases hfo : f st o with
      | none => rw [hfo] at h; simp at h
      | some pr =>
        obtain ⟨r, st1⟩ := pr
        rw [hfo] at h
        cases r with
        | panicked msg =>
          simp only [Option.some.injEq] at h
          subst h
          simp only [Cake.DepsResult.state] at hk
          exact ⟨o, List.mem_cons_self _ _, hf st o _ st1 hfo k hk⟩
        | ok v =>
          simp only at h
          cases hrec : Cake.computeDepsWith f st1 ds with
          | none => rw [hrec] at h; simp at h
          | some res' =>
            rw [hrec] at h
            have hst : res.state = res'.state := by
              cases res' with
              | panicked msg st2 =>
                simp only [Option.some.injEq] at h
                subst h
                rfl
              | done rs st2 =>
                simp only [Option.some.injEq] at h
                subst h
                rfl
            rw [hst] at hk
            by_cases hmid : alookup st1.cache k = alookup st.cache k
            · rw [← hmid] at hk
              obtain ⟨o', ho', hrtg⟩ := ih st1 res' hrec k hk
              exact ⟨o', List.mem_cons_of_mem _ ho', hrtg⟩
            · exact ⟨o, List.mem_cons_self _ _, hf st o _ st1 hfo k hmid⟩
        | err e =>
          simp only at h
          cases hrec : Cake.computeDepsWith f st1 ds with
          | none => rw [hrec] at h; simp at h
          | some res' =>
            rw [hrec] at h
            have hst : res.state = res'.state := by
              cases res' with
              | panicked msg st2 =>
                simp only [Option.some.injEq] at h
                subst h
                rfl
              | done rs st2 =>
                simp only [Option.some.injEq] at h
                subst h
                rfl
            rw [hst] at hk
            by_cases hmid : alookup st1.cache k = alookup st.cache k
            · rw [← hmid] at hk
              obtain ⟨o', ho', hrtg⟩ := ih st1 res' hrec k hk
              exact ⟨o', List.mem_cons_of_mem _ ho', hrtg⟩
            · exact ⟨o, List.mem_cons_self _ _, hf st o _ st1 hfo k hmid⟩

/-- Frame property of the evaluator: a cache slot changed by
`_compute dst fuel st o` lies in the dependency cone of `o`. -/
theorem _compute_frame {T E : Type} (dst : Cake.DST T E) :
    ∀ (fuel : Nat) (st : Cake.CState T) (o : Cake.Output) (r : Cake.COutcome T E)
      (st' : Cake.CState T),
      Cake._compute dst fuel st o = some (r, st') →
      ∀ k, alookup st'.cache k ≠ alookup st.cache k →
        Relation.ReflTransGen (Cake.depends dst) o k := by
  intro fuel
  induction fuel with
  | zero =>
    intro st o r st' h k hk
    simp [Cake._compute] at h
  | succ fuel ih =>
    intro st o r st' h k hk
    rw [Cake._compute] at h
    cases hT : alookup dst.transforms o.t_idx with
    | none =>
      rw [hT] at h
      simp only [Option.some.injEq, Prod.mk.injEq] at h
      rw [← h.2] at hk
      exact absurd rfl hk
    | some mt =>
      rw [hT] at h
      cases hC : alookup st.cache o with
      | none =>
        rw [hC] at h
        simp only [Option.some.injEq, Prod.mk.injEq] at h
        rw [← h.2] at hk
        exact absurd rfl hk
      | some slot =>
        rw [hC] at h
        cases slot with
        | some v =>
          simp only [Option.some.injEq, Prod.mk.injEq] at h
          rw [← h.2] at hk
          exact absurd rfl hk
        | none =>
          simp only at h
          cases hD : Cake.computeDepsWith (Cake._compute dst fuel) st
              (Cake.get_transform_dependencies dst o.t_idx) with
          | none => rw [hD] at h; simp at h
          | some res =>
            rw [hD] at h
            have hdep : ∀ k, alookup res.state.cache k ≠ alookup st.cache k →
                Relation.ReflTransGen (Cake.depends dst) o k := by
              intro k hk
              obtain ⟨d, hd, hrtg⟩ := computeDepsWith_frame dst (Cake._compute dst fuel)
                (fun st o r st' hcall => ih st o r st' hcall) _ st res hD k hk
              exact Relation.ReflTransGen.head hd hrtg
            cases res with
            | panicked msg st1 =>
              simp only [Option.some.injEq, Prod.mk.injEq] at h
              obtain ⟨-, rfl⟩ := h
              exact hdep k hk
            | done results st1 =>
              simp only at h
              simp only [Cake.DepsResult.state] at hdep
              cases hF : Cake.feedAll results with
              | error e =>
                rw [hF] at h
                simp only [Option.some.injEq, Prod.mk.injEq] at h
                obtain ⟨-, rfl⟩ := h
                exact hdep k hk
              | ok vals =>
                rw [hF] at h
                simp only at h
                cases hN : (Cake.runAlgorithm mt.t.algorithm vals).get? o.output_i with
                | none =>
                  rw [hN] at h
                  simp only [Option.some.injEq, Prod.mk.injEq] at h
                  obtain ⟨-, rfl⟩ := h
                  exact hdep k hk
                | some sel =>
                  rw [hN] at h
                  cases sel with
                  | error e =>
                    simp only [Option.some.injEq, Prod.mk.injEq] at h
                    obtain ⟨-, rfl⟩ := h
                    exact hdep k hk
                  | ok v =>
                    simp only [Option.some.injEq, Prod.mk.injEq] at h
                    obtain ⟨-, rfl⟩ := h
                    by_cases hko : k = o
                    · subst hko
                      exact Relation.ReflTransGen.refl
                    · simp only [alookup_aset_ne _ _ _ _ hko] at hk
                      exact hdep k hk

/-- **C4.**  On an output that is not in its own dependency cone (the
acyclicity invariant guarantees this for every output of a valid graph),
a `_compute` call returning an error leaves that output's cache slot
exactly as it was: only successes populate the cache. -/
theorem compute_errors_never_cached {T E : Type} (dst : Cake.DST T E)
    (fuel : Nat) (st : Cake.CState T) (out : Cake.Output) (e : Cake.DSTError E)
    (st' : Cake.CState T)
    (h : Cake._compute dst fuel st out = some (.err e, st'))
    (hA : ¬ Relation.TransGen (Cake.depends dst) out out) :
    alookup st'.cache out = alookup st.cache out := by
  cases fuel with
  | zero => simp [Cake._compute] at h
  | succ fuel =>
    rw [Cake._compute] at h
    cases hT : alookup dst.transforms out.t_idx with
    | none =>
      rw [hT] at h
      simp only [Option.some.injEq, Prod.mk.injEq] at h
      rw [← h.2]
    | some mt =>
      rw [hT] at h
      cases hC : alookup st.cache out with
      | none =>
        rw [hC] at h
        simp at h
      | some slot =>
        rw [hC] at h
        cases slot with
        | some v => simp at h
        | none =>
          simp only at h
          cases hD : Cake.computeDepsWith (Cake._compute dst fuel) st
              (Cake.get_transform_dependencies dst out.t_idx) with
          | none => rw [hD] at h; simp at h
          | some res =>
            rw [hD] at h
            have hdep : alookup res.state.cache out = alookup st.cache out := by
              by_contra hne
              obtain ⟨d, hd, hrtg⟩ := computeDepsWith_frame dst (Cake._compute dst fuel)
                (fun st o r st' hcall => _compute_frame dst fuel st o r st' hcall)
                _ st res hD out hne
              exact hA (Relation.TransGen.head' hd hrtg)
            cases res with
            | panicked msg st1 => simp at h
            | done results st1 =>
              simp only at h
              simp only [Cake.DepsResult.state] at hdep
              cases hF : Cake.feedAll results with
              | error e' =>
                rw [hF] at h
                simp only [Option.some.injEq, Prod.mk.injEq] at h
                rw [← h.2]
                exact hdep.trans hC
              | ok vals =>
                rw [hF] at h
                simp only at h
                cases hN : (Cake.runAlgorithm mt.t.algorithm vals).get? out.output_i with
                | none =>
                  rw [hN] at h
                  simp only [Option.some.injEq, Prod.mk.injEq] at h
                  rw [← h.2]
                  exact hdep.trans hC
                | some sel =>
                  rw [hN] at h
                  cases sel with
                  | error e' =>
                    simp only [Option.some.injEq, Prod.mk.injEq] at h
                    rw [← h.2]
                    exact hdep.trans hC
                  | ok v => simp at h

/-- A relation with no edges at all has no transitive cycle. -/
theorem transGen_empty_rel {α : Type} (r : α → α → Prop) (h : ∀ a b, ¬ r a b) (a : α) :
    ¬ Relation.TransGen r a a := fun hT => by
  cases hT with
  | single h1 => exact h _ _ h1
  | tail _ h1 => exact h _ _ h1

/-- Every transform of `dstFail` has an empty dependency list. -/
theorem deps_dstFail_nil (t : Cake.TransformIdx) :
    Cake.get_transform_dependencies dstFail t = [] := by
  rw [Cake.get_transform_dependencies]
  rcases ht : alookup dstFail.transforms t with _ | mt
  · rfl
  · have hmt : mt = Cake.MetaTransform.new fail0 := by
      by_cases h1 : t = (⟨1⟩ : Cake.TransformIdx)
      · simp [dstFail, alookup, h1] at ht
        exact ht.symm
      · simp [dstFail, alookup, h1] at ht
    subst hmt
    rfl

theorem depends_dstFail_empty (o o' : Cake.Output) : ¬ Cake.depends dstFail o o' := by
  intro h
  unfold Cake.depends at h
  rw [deps_dstFail_nil] at h
  simp at h

theorem compute_errors_never_cached_witness :
    Cake._compute dstFail 3 (Cake.initState dstFail) ⟨⟨1⟩, 0⟩
        = some (.err (.InnerComputeError "boom"),
            { cache := [(⟨⟨1⟩, 0⟩, none)], calls := [⟨1⟩] }) ∧
    alookup ({ cache := [(⟨⟨1⟩, 0⟩, none)], calls := [⟨1⟩] }
        : Cake.CState AlgoContent).cache ⟨⟨1⟩, 0⟩
      = alookup (Cake.initState dstFail).cache ⟨⟨1⟩, 0⟩ :=
  ⟨by decide,
   compute_errors_never_cached dstFail 3 (Cake.initState dstFail) ⟨⟨1⟩, 0⟩
     (.InnerComputeError "boom") { cache := [(⟨⟨1⟩, 0⟩, none)], calls := [⟨1⟩] }
     (by decide) (transGen_empty_rel _ depends_dstFail_empty _)⟩

/-! ## C5: the first dependency error is propagated -/

/-- `feedAll` returns the first error of the result list, in declared
input order. -/
theorem feedAll_first_error {T E : Type} :
    ∀ (rs : List (Except (Cake.DSTError E) T)) (i : Nat) (e : Cake.DSTError E),
      rs.get? i = some (.error e) →
      (∀ j, j < i → ∃ v, rs.get? j = some (.ok v)) →
      Cake.feedAll rs = .error e := by
  intro rs
  induction rs with
  | nil => intro i e hi _; simp at hi
  | cons r rs ih =>
    intro i e hi hfirst
    cases i with
    | zero =>
      simp only [List.get?_cons_zero, Option.some.injEq] at hi
      subst hi
      rfl
    | succ i =>
      obtain ⟨v, hv⟩ := hfirst 0 (Nat.succ_pos i)
      simp only [List.get?_cons_zero, Option.some.injEq] at hv
      subst hv
      have hrec := ih i e (by simpa using hi)
        (fun j hj => by simpa using hfirst (j + 1) (Nat.succ_lt_succ hj))
      simp only [Cake.feedAll, hrec]
      rfl

/-- **C5.**  When the dependency phase of `_compute` yields a result list
whose first failure is the error `e` at input `i` (all earlier declared
inputs having succeeded), `_compute` returns exactly `e` and does not
invoke the transform's algorithm: the returned state is the dependency
phase's state, with no invocation appended to the trace. -/
theorem compute_first_dep_error_propagates {T E : Type} (dst : Cake.DST T E)
    (fuel : Nat) (st : Cake.CState T) (out : Cake.Output)
    (mt : Cake.MetaTransform T E) (rs : List (Except (Cake.DSTError E) T))
    (st1 : Cake.CState T) (i : Nat) (e : Cake.DSTError E)
    (hT : alookup dst.transforms out.t_idx = some mt)
    (hC : alookup st.cache out = some none)
    (hD : Cake.computeDepsWith (Cake._compute dst fuel) st
        (Cake.get_transform_dependencies dst out.t_idx) = some (.done rs st1))
    (hi : rs.get? i = some (.error e))
    (hfirst : ∀ j, j < i → ∃ v, rs.get? j = some (.ok v)) :
    Cake._compute dst (fuel + 1) st out = some (.err e, st1) := by
  rw [Cake._compute, hT]
  simp only
  rw [hC]
  simp only
  rw [hD]
  simp only
  rw [feedAll_first_error rs i e hi hfirst]

theorem compute_first_dep_error_propagates_witness :
    Cake._compute dstFailChain 3 (Cake.initState dstFailChain) ⟨⟨2⟩, 0⟩
      = some (.err (.InnerComputeError "boom"),
          { cache := dstFailChain.cache, calls := [⟨1⟩] }) :=
  compute_first_dep_error_propagates dstFailChain 2 (Cake.initState dstFailChain)
    ⟨⟨2⟩, 0⟩ (Cake.MetaTransform.new plus1) [.error (.InnerComputeError "boom")]
    { cache := dstFailChain.cache, calls := [⟨1⟩] } 0 (.InnerComputeError "boom")
    rfl rfl rfl rfl (fun j hj => absurd hj (Nat.not_lt_zero j))

/-! ## C6: structural defects are reported, not panicked -/

/-- **C6.**  The two structural defects detected at evaluation time are
returned as `ComputeError` values, not panics: a producing transform
absent from the graph, and an algorithm yielding no output at the
requested index (given the output's cache slot exists, as the Builder
maintains for every declared port). -/
theorem compute_structural_defects_reported {T E : Type} (dst : Cake.DST T E)
    (fuel : Nat) (st : Cake.CState T) (out : Cake.Output) :
    (alookup dst.transforms out.t_idx = none →
      Cake._compute dst (fuel + 1) st out
        = some (.err (.ComputeError "Tranform not found!"), st)) ∧
    (∀ (mt : Cake.MetaTransform T E) (rs : List (Except (Cake.DSTError E) T))
        (st1 : Cake.CState T) (vals : List T),
      alookup dst.transforms out.t_idx = some mt →
      alookup st.cache out = some none →
      Cake.computeDepsWith (Cake._compute dst fuel) st
          (Cake.get_transform_dependencies dst out.t_idx) = some (.done rs st1) →
      Cake.feedAll rs = .ok vals →
      (Cake.runAlgorithm mt.t.algorithm vals).get? out.output_i = none →
      Cake._compute dst (fuel + 1) st out
        = some (.err (.ComputeError "No nth output received. This is a bug!"),
            { cache := st1.cache, calls := st1.calls ++ [out.t_idx] })) := by
  constructor
  · intro hT
    rw [Cake._compute, hT]
  · intro mt rs st1 vals hT hC hD hF hN
    rw [Cake._compute, hT]
    simp only
    rw [hC]
    simp only
    rw [hD]
    simp only
    rw [hF]
    simp only
    rw [hN]

theorem compute_structural_defects_reported_witness :
    Cake._compute dstFail 3 (Cake.initState dstFail) ⟨⟨9⟩, 0⟩
      = some (.err (.ComputeError "Tranform not found!"), Cake.initState dstFail) ∧
    Cake._compute dstShort 3 (Cake.initState dstShort) ⟨⟨1⟩, 1⟩
      = some (.err (.ComputeError "No nth output received. This is a bug!"),
          { cache := dstShort.cache, calls := [⟨1⟩] }) :=
  ⟨(compute_structural_defects_reported dstFail 2 (Cake.initState dstFail) ⟨⟨9⟩, 0⟩).1 rfl,
   (compute_structural_defects_reported dstShort 2 (Cake.initState dstShort) ⟨⟨1⟩, 1⟩).2
     (Cake.MetaTransform.new short2) [] (Cake.initState dstShort) [] rfl rfl rfl rfl rfl⟩

/-! ## C1: the type tag of each value variant -/

/-- **C1** (code bug).  The claim says `get_type` sends each variant to the
tag of the same name; the code sends `IOValue::Image2d` to
`IOType::Image3d` (src/aflak_transforms/src/lib.rs line 42), so an
`Image2d` value does not carry the `Image2d` tag. -/
theorem get_type_image2d_is_image3d :
    IOValue.get_type (.Image2d []) = IOType.Image3d ∧ IOType.Image3d ≠ IOType.Image2d := by
  exact ⟨rfl, by decide⟩

/-! ## C2: the S1 linear chain -/

/-- **C2.**  On the S1 graph (`a=get1, b=minus1, c=plus1, d=plus1,
e=plus1`, edges `a→b, a→c, c→d, c→e`, sinks `out1=Output(d,0)`,
`out2=Output(b,0)`), `compute(out1)` returns `Integer(3)` and
`compute(out2)` then returns `Integer(0)`, as in
`test_make_dst_and_iterate_dependencies`. -/
theorem compute_s1_linear_chain :
    Cake.compute dstS1 10 (Cake.initState dstS1) ⟨1⟩
        = some (.ok (.Integer 3), stS1after1) ∧
    Cake.compute dstS1 10 stS1after1 ⟨2⟩
        = some (.ok (.Integer 0), stS1after2) := by
  exact ⟨by decide, by decide⟩

/-! ## C7: the caller protocol of the old transformation type -/

/-- **C7** (code bug).  The claim (and the spec's caller protocol) says a
mismatched tag fails with a `WrongType` value and a mismatched count with
an `ArityMismatch` value; the code of `src/src/transform.rs` (which
carries the comment `TODO: Do not panic!`) panics in all three cases:
feeding a value of the wrong tag, feeding more values than declared, and
calling with fewer values than declared. -/
theorem caller_panics_on_wrong_type_and_arity :
    (V0.Transformation.start plus1V0).feed IOValue.get_type (.Float ⟨0⟩)
        = .panicked "Wrong type on feeding algorithm!" ∧
    (V0.Transformation.start get1V0).feed IOValue.get_type (.Integer 1)
        = .panicked "Not all type consumed" ∧
    (V0.Transformation.start plus1V0).call = .panicked "Missing input arguments!" := by
  exact ⟨rfl, rfl, rfl⟩

/-! ## C8: unknown transform names on import -/

/-- **C8** (counterexample).  Resolving a serialized `Function(name)`
whose name is not in the registry does not produce a recoverable
`ImportError` value: `DeserTransform::into` panics
(src/src/aflak_cake/src/export.rs line 52). -/
theorem deser_unknown_name_panics_cex :
    Cake.DeserTransform.into regS1 AlgoContent.variant_name (.Function "slice_3d_to_2d")
      = Cake.IntoOutcome.panicked "Transform slice_3d_to_2d not found!" := rfl

/-- **C8** (amended).  On import, resolving a serialized `Function(name)`
whose name is not in the transform registry panics with `Transform <name>
not found!`; no recoverable error value is returned to the caller. -/
theorem deser_unknown_name_panics {T E : Type}
    (reg : String → Option (Cake.Transformation T E)) (vn : T → String) (name : String)
    (h : reg name = none) :
    Cake.DeserTransform.into reg vn (.Function name)
      = Cake.IntoOutcome.panicked ("Transform " ++ name ++ " not found!") := by
  simp [Cake.DeserTransform.into, h]

theorem deser_unknown_name_panics_witness :
    regS1 "slice3d" = none ∧
    Cake.DeserTransform.into regS1 AlgoContent.variant_name (.Function "slice3d")
      = Cake.IntoOutcome.panicked "Transform slice3d not found!" :=
  ⟨rfl, deser_unknown_name_panics regS1 AlgoContent.variant_name "slice3d" rfl⟩

/-! ## C10: Timed::map preserves the creation instant -/

/-- **C10.**  `Timed::map` applies `f` to the contained value and leaves
`created_on` exactly as it was. -/
theorem timed_map_preserves_created_on {T U : Type} (t : Timed T) (f : T → U) :
    (Timed.map t f).value = f t.value ∧ (Timed.map t f).created_on = t.created_on :=
  ⟨rfl, rfl⟩

/-! ## C9: serialization round trip

The auxiliary lemmas below reconstruct, phase by phase, what importing
the serialized form of a valid graph rebuilds: the transforms phase is a
map, the edge replay re-groups the flattened edge list, and the output
replay re-appends the sink list. -/

theorem alookup_eq_none_of_not_mem_keys {α β : Type} [DecidableEq α]
    (l : List (α × β)) (k : α) (h : k ∉ l.map (·.1)) : alookup l k = none := by
  induction l with
  | nil => rfl
  | cons p rest ih =>
    obtain ⟨k', v'⟩ := p
    simp only [List.map_cons, List.mem_cons] at h
    push_neg at h
    simp [alookup, h.1, ih h.2]

theorem alookup_append_singleton {α β : Type} [DecidableEq α]
    (l : List (α × β)) (k : α) (v : β) (h : k ∉ l.map (·.1)) :
    alookup (l ++ [(k, v)]) k = some v := by
  induction l with
  | nil => simp [alookup]
  | cons p rest ih =>
    obtain ⟨k', v'⟩ := p
    simp only [List.map_cons, List.mem_cons] at h
    push_neg at h
    simpa [alookup, h.1] using ih h.2

theorem aappend_append_singleton {α β : Type} [DecidableEq α]
    (l : List (α × List β)) (k : α) (js : List β) (i : β) (h : k ∉ l.map (·.1)) :
    Cake.aappend k i (l ++ [(k, js)]) = l ++ [(k, js ++ [i])] := by
  induction l with
  | nil => simp [Cake.aappend]
  | cons p rest ih =>
    obtain ⟨k', l'⟩ := p
    simp only [List.map_cons, List.mem_cons] at h
    push_neg at h
    simpa [Cake.aappend, h.1] using ih h.2

theorem addEdge_new_key (edges : List (Cake.Output × List Cake.Input))
    (o : Cake.Output) (i : Cake.Input) (h : o ∉ edges.map (·.1)) :
    Cake.addEdge edges o i = edges ++ [(o, [i])] := by
  unfold Cake.addEdge
  rw [alookup_eq_none_of_not_mem_keys edges o h]
  rfl

theorem addEdge_last_key (l : List (Cake.Output × List Cake.Input))
    (o : Cake.Output) (js : List Cake.Input) (i : Cake.Input) (h : o ∉ l.map (·.1)) :
    Cake.addEdge (l ++ [(o, js)]) o i = l ++ [(o, js ++ [i])] := by
  unfold Cake.addEdge
  rw [alookup_append_singleton l o js h]
  simp only [Option.isSome_some, if_pos]
  exact aappend_append_singleton l o js i h

theorem metaTransform_new_eq {T E : Type} (mt : Cake.MetaTransform T E)
    (h : mt.input_defaults = mt.t.input.map (·.2)) :
    Cake.MetaTransform.new mt.t = mt := by
  cases mt with
  | mk t d =>
    unfold Cake.MetaTransform.new
    simp only at h
    rw [← h]

/-- Resolving the serialized transforms of a graph whose entries round
trip yields exactly the original descriptors. -/
theorem resolveTransforms_roundtrip {T E : Type}
    (reg : String → Option (Cake.Transformation T E)) (vn : T → String) :
    ∀ (l : List (Cake.TransformIdx × Cake.MetaTransform T E)),
      (∀ p ∈ l, Cake.entryRoundTrips reg vn p) →
      Cake.resolveTransforms reg vn
          ((l.map fun p => (p.1, Cake.SerialTransform.new p.2.t)).map
            fun p => (p.1, p.2.toDeser))
        = .ok (l.map fun p => (p.1, p.2.t)) := by
  intro l
  induction l with
  | nil => intro _; rfl
  | cons p rest ih =>
    intro hall
    obtain ⟨idx, mt⟩ := p
    obtain ⟨hdef, hfun, hconst⟩ := hall _ (List.mem_cons_self _ _)
    have hrest := ih fun q hq => hall q (List.mem_cons_of_mem _ hq)
    simp only [List.map_cons]
    cases halg : mt.t.algorithm with
    | Function f =>
      have hser : Cake.SerialTransform.new mt.t = Cake.SerialTransform.Function mt.t.name := by
        unfold Cake.SerialTransform.new
        rw [halg]
      rw [hser]
      have ht : (Cake.SerialTransform.Function mt.t.name).toDeser
          = Cake.DeserTransform.Function (T := T) mt.t.name := rfl
      rw [ht, Cake.resolveTransforms]
      simp only [Cake.resolveOne, hfun f halg, hrest]
      rfl
    | Constant c =>
      have hser : Cake.SerialTransform.new mt.t = Cake.SerialTransform.Constant c := by
        unfold Cake.SerialTransform.new
        rw [halg]
      rw [hser]
      have ht : (Cake.SerialTransform.Constant c).toDeser
          = Cake.DeserTransform.Constant c := rfl
      rw [ht, Cake.resolveTransforms]
      simp only [Cake.resolveOne, hrest]
      rw [← hconst c halg]
      rfl

/-- Folding `addTransformWithIdx` installs the listed transforms in order
and touches neither edges nor outputs. -/
theorem buildTransforms_spec {T E : Type} :
    ∀ (l : List (Cake.TransformIdx × Cake.Transformation T E)) (dst : Cake.DST T E),
      (l.foldl (fun d p => Cake.addTransformWithIdx d p.1 p.2) dst).transforms
          = dst.transforms ++ l.map (fun q => (q.1, Cake.MetaTransform.new q.2)) ∧
      (l.foldl (fun d p => Cake.addTransformWithIdx d p.1 p.2) dst).edges = dst.edges ∧
      (l.foldl (fun d p => Cake.addTransformWithIdx d p.1 p.2) dst).outputs = dst.outputs := by
  intro l
  induction l with
  | nil => intro dst; simp
  | cons p rest ih =>
    intro dst
    simp only [List.foldl_cons]
    obtain ⟨h1, h2, h3⟩ := ih (Cake.addTransformWithIdx dst p.1 p.2)
    refine ⟨?_, ?_, ?_⟩
    · rw [h1]
      simp [Cake.addTransformWithIdx]
    · rw [h2]
      rfl
    · rw [h3]
      rfl

theorem flattenEdges_append (xs ys : List (Cake.Output × List Cake.Input)) :
    Cake.flattenEdges (xs ++ ys) = Cake.flattenEdges xs ++ Cake.flattenEdges ys := by
  simp [Cake.flattenEdges]

theorem flattenEdges_cons (q : Cake.Output × List Cake.Input)
    (l : List (Cake.Output × List Cake.Input)) :
    Cake.flattenEdges (q :: l)
      = q.2.map (fun i => (q.1, i)) ++ Cake.flattenEdges l := by
  simp [Cake.flattenEdges]

theorem forwardNeighbors_mem (edges : List (Cake.Output × List Cake.Input))
    (t n : Cake.TransformIdx) (h : n ∈ Cake.forwardNeighbors edges t) :
    Cake.edgeRel edges t n := by
  unfold Cake.forwardNeighbors at h
  simp only [List.mem_filterMap] at h
  obtain ⟨p, hp, hpn⟩ := h
  by_cases hc : p.1.t_idx = t
  · rw [if_pos hc] at hpn
    exact ⟨p, hp, hc, by injection hpn⟩
  · rw [if_neg hc] at hpn
    cases hpn

/-- Soundness of the fueled depth-first cycle check: a `true` answer
exhibits a real forward path. -/
theorem reachesWithin_sound (edges : List (Cake.Output × List Cake.Input)) :
    ∀ (n : Nat) (s t : Cake.TransformIdx),
      Cake.reachesWithin edges n s t = true →
      Relation.ReflTransGen (Cake.edgeRel edges) s t := by
  intro n
  induction n with
  | zero => intro s t h; simp [Cake.reachesWithin] at h
  | succ n ih =>
    intro s t h
    rw [Cake.reachesWithin] at h
    simp only [Bool.or_eq_true, decide_eq_true_eq, List.any_eq_true] at h
    rcases h with h | ⟨nb, hnb, hr⟩
    · subst h
      exact Relation.ReflTransGen.refl
    · exact Relation.ReflTransGen.head (forwardNeighbors_mem edges s nb hnb) (ih nb t hr)

/-- On a sub-edge-set of an acyclic graph, the cycle check for an edge of
that graph must come back negative. -/
theorem reachesWithin_false_of_acyclic
    {Gedges acc : List (Cake.Output × List Cake.Input)}
    (hsub : ∀ p ∈ Cake.flattenEdges acc, p ∈ Cake.flattenEdges Gedges)
    (hacyc : ∀ t, ¬ Relation.TransGen (Cake.edgeRel Gedges) t t)
    {o : Cake.Output} {i : Cake.Input} (hmem : (o, i) ∈ Cake.flattenEdges Gedges)
    (n : Nat) : Cake.reachesWithin acc n i.t_idx o.t_idx = false := by
  cases hr : Cake.reachesWithin acc n i.t_idx o.t_idx
  · rfl
  · exfalso
    have hrtg := reachesWithin_sound acc n _ _ hr
    have hrtg2 : Relation.ReflTransGen (Cake.edgeRel Gedges) i.t_idx o.t_idx :=
      hrtg.mono fun a b hab => by
        obtain ⟨p, hp, h1, h2⟩ := hab
        exact ⟨p, hsub p hp, h1, h2⟩
    have hstep : Cake.edgeRel Gedges o.t_idx i.t_idx := ⟨(o, i), hmem, rfl, rfl⟩
    exact hacyc o.t_idx (Relation.TransGen.head' hstep hrtg2)

theorem alreadyDriven_eq_false (edges : List (Cake.Output × List Cake.Input))
    (i : Cake.Input) (h : i ∉ (Cake.flattenEdges edges).map (·.2)) :
    Cake.alreadyDriven edges i = false := by
  unfold Cake.alreadyDriven
  rw [List.any_eq_false]
  intro p hp
  simp only [decide_eq_true_eq]
  intro hpi
  exact h (List.mem_map.mpr ⟨p, hp, hpi⟩)

/-- When the §4.2 checks pass, `connect` inserts the edge. -/
theorem connect_ok {T E : Type} (dst : Cake.DST T E) (o : Cake.Output) (i : Cake.Input)
    (hok : Cake.edgeOk dst.transforms (o, i) = true)
    (hdrv : Cake.alreadyDriven dst.edges i = false)
    (hcyc : Cake.reachesWithin dst.edges (dst.transforms.length + 1) i.t_idx o.t_idx = false) :
    Cake.connect dst o i = .ok { dst with edges := Cake.addEdge dst.edges o i } := by
  unfold Cake.edgeOk at hok
  simp only at hok
  unfold Cake.connect
  cases h1 : alookup dst.transforms o.t_idx with
  | none => rw [h1] at hok; simp at hok
  | some pmt =>
    rw [h1] at hok
    cases h2 : alookup dst.transforms i.t_idx with
    | none => rw [h2] at hok; simp at hok
    | some cmt =>
      rw [h2] at hok
      simp only at hok
      cases h3 : pmt.t.output.get? o.output_i with
      | none => rw [h3] at hok; simp at hok
      | some out_ty =>
        rw [h3] at hok
        cases h4 : cmt.t.input.get? i.input_i with
        | none => rw [h4] at hok; simp at hok
        | some in_ty =>
          rw [h4] at hok
          simp only [decide_eq_true_eq] at hok
          rw [List.get?_eq_getElem?] at h3 h4
          simp [hok, hdrv, hcyc, h3, h4]

theorem replayEdges_append {T E : Type} :
    ∀ (xs ys : List (Cake.Output × Cake.Input)) (dst : Cake.DST T E),
      Cake.replayEdges dst (xs ++ ys)
        = match Cake.replayEdges dst xs with
          | .error e => .error e
          | .ok d => Cake.replayEdges d ys := by
  intro xs
  induction xs with
  | nil => intro ys dst; rfl
  | cons p xs ih =>
    intro ys dst
    obtain ⟨o, i⟩ := p
    simp only [List.cons_append]
    cases hc : Cake.connect dst o i with
    | error e => simp [Cake.replayEdges, hc]
    | ok d => simp [Cake.replayEdges, hc, ih]

theorem flattenEdges_block_append (E0 : List (Cake.Output × List Cake.Input))
    (o : Cake.Output) (js : List Cake.Input) :
    Cake.flattenEdges (E0 ++ [(o, js)])
      = Cake.flattenEdges E0 ++ js.map (fun i => (o, i)) := by
  rw [flattenEdges_append]
  simp [Cake.flattenEdges]

theorem map_snd_pair_map (o : Cake.Output) (is : List Cake.Input) :
    (is.map (fun i => (o, i))).map (·.2) = is := by
  induction is with
  | nil => rfl
  | cons i is ih => simp only [List.map_cons, ih]

/-- Replaying the remaining inputs of one producer block appends them, in
order, to the block's `InputList`; every `connect` check passes. -/
theorem replayEdges_block {T E : Type} (G : Cake.DST T E)
    (hacyc : ∀ t, ¬ Relation.TransGen (Cake.edgeRel G.edges) t t) :
    ∀ (rest js : List Cake.Input) (E0 : List (Cake.Output × List Cake.Input))
      (dst : Cake.DST T E) (o : Cake.Output),
      dst.transforms = G.transforms →
      dst.edges = E0 ++ [(o, js)] →
      o ∉ E0.map (·.1) →
      (∀ p ∈ Cake.flattenEdges (E0 ++ [(o, js)]), p ∈ Cake.flattenEdges G.edges) →
      (∀ i ∈ rest, Cake.edgeOk G.transforms (o, i) = true) →
      (∀ i ∈ rest, (o, i) ∈ Cake.flattenEdges G.edges) →
      (∀ i ∈ rest, i ∉ (Cake.flattenEdges (E0 ++ [(o, js)])).map (·.2)) →
      rest.Nodup →
      ∃ dst', Cake.replayEdges dst (rest.map fun i => (o, i)) = .ok dst' ∧
        dst'.transforms = dst.transforms ∧
        dst'.edges = E0 ++ [(o, js ++ rest)] ∧
        dst'.outputs = dst.outputs ∧
        dst'.cache = dst.cache := by
  intro rest
  induction rest with
  | nil =>
    intro js E0 dst o htrs hedges hkey hsub hok hmem hnew hnodup
    exact ⟨dst, rfl, rfl, by rw [hedges]; simp, rfl, rfl⟩
  | cons i rest ih =>
    intro js E0 dst o htrs hedges hkey hsub hok hmem hnew hnodup
    obtain ⟨hir, hnodup'⟩ := List.nodup_cons.mp hnodup
    have hdrv : Cake.alreadyDriven dst.edges i = false := by
      rw [hedges]
      exact alreadyDriven_eq_false _ i (hnew i (List.mem_cons_self _ _))
    have hcyc : Cake.reachesWithin dst.edges (dst.transforms.length + 1) i.t_idx o.t_idx
        = false := by
      rw [hedges]
      exact reachesWithin_false_of_acyclic hsub hacyc (hmem i (List.mem_cons_self _ _)) _
    have hcon := connect_ok dst o i
      (by rw [htrs]; exact hok i (List.mem_cons_self _ _)) hdrv hcyc
    have hedges' : Cake.addEdge dst.edges o i = E0 ++ [(o, js ++ [i])] := by
      rw [hedges]
      exact addEdge_last_key E0 o js i hkey
    have hsub' : ∀ p ∈ Cake.flattenEdges (E0 ++ [(o, js ++ [i])]),
        p ∈ Cake.flattenEdges G.edges := by
      intro p hp
      rw [flattenEdges_block_append] at hp
      rcases List.mem_append.mp hp with hp | hp
      · exact hsub p (by rw [flattenEdges_block_append]; exact List.mem_append.mpr (.inl hp))
      · rcases List.mem_map.mp hp with ⟨i', hi', rfl⟩
        rcases List.mem_append.mp hi' with hi' | hi'
        · refine hsub _ ?_
          rw [flattenEdges_block_append]
          exact List.mem_append.mpr (.inr (List.mem_map.mpr ⟨i', hi', rfl⟩))
        · simp only [List.mem_singleton] at hi'
          subst hi'
          exact hmem _ (List.mem_cons_self _ _)
    have hnew' : ∀ i' ∈ rest, i' ∉ (Cake.flattenEdges (E0 ++ [(o, js ++ [i])])).map (·.2) := by
      intro i' hi' hbad
      have hold := hnew i' (List.mem_cons_of_mem _ hi')
      rw [flattenEdges_block_append, List.map_append, map_snd_pair_map] at hbad hold
      rcases List.mem_append.mp hbad with hb | hb
      · exact hold (List.mem_append.mpr (.inl hb))
      · rcases List.mem_append.mp hb with hb | hb
        · exact hold (List.mem_append.mpr (.inr hb))
        · simp only [List.mem_singleton] at hb
          subst hb
          exact hir hi'
    obtain ⟨dst', hrep, htr', hed', hout', hcache'⟩ := ih (js ++ [i]) E0
      { dst with edges := Cake.addEdge dst.edges o i } o htrs (by rw [hedges'])
      hkey (by rw [← hedges']; rw [hedges']; exact hsub')
      (fun i' hi' => hok i' (List.mem_cons_of_mem _ hi'))
      (fun i' hi' => hmem i' (List.mem_cons_of_mem _ hi'))
      hnew' hnodup'
    refine ⟨dst', ?_, htr', ?_, hout', hcache'⟩
    · simp only [List.map_cons]
      rw [Cake.replayEdges, hcon]
      exact hrep
    · rw [hed']
      simp
/-- Replaying the flattened edge list of a valid graph through `connect`
rebuilds its grouped edge map exactly. -/
theorem replayEdges_roundtrip {T E : Type} (G : Cake.DST T E)
    (hacyc : ∀ t, ¬ Relation.TransGen (Cake.edgeRel G.edges) t t) :
    ∀ (L : List (Cake.Output × List Cake.Input)) (dst : Cake.DST T E),
      dst.transforms = G.transforms →
      (∀ q ∈ L, q.1 ∉ dst.edges.map (·.1)) →
      (L.map (·.1)).Nodup →
      (∀ q ∈ L, q.2 ≠ []) →
      (∀ p ∈ Cake.flattenEdges L, Cake.edgeOk G.transforms p = true) →
      (∀ p ∈ Cake.flattenEdges dst.edges, p ∈ Cake.flattenEdges G.edges) →
      (∀ p ∈ Cake.flattenEdges L, p ∈ Cake.flattenEdges G.edges) →
      (∀ p ∈ Cake.flattenEdges L, p.2 ∉ (Cake.flattenEdges dst.edges).map (·.2)) →
      ((Cake.flattenEdges L).map (·.2)).Nodup →
      ∃ dst', Cake.replayEdges dst (Cake.flattenEdges L) = .ok dst' ∧
        dst'.transforms = dst.transforms ∧
        dst'.edges = dst.edges ++ L ∧
        dst'.outputs = dst.outputs ∧
        dst'.cache = dst.cache := by
  intro L
  induction L with
  | nil =>
    intro dst htrs _ _ _ _ _ _ _ _
    exact ⟨dst, rfl, rfl, by simp [Cake.flattenEdges], rfl, rfl⟩
  | cons q L ih =>
    obtain ⟨o, is⟩ := q
    intro dst htrs hkeysd hkeysnd hne hok hsub hsubL hinew hinodup
    cases is with
    | nil => exact absurd rfl (hne (o, []) (List.mem_cons_self _ _))
    | cons i0 is' =>
      have hflat : Cake.flattenEdges ((o, i0 :: is') :: L)
          = ((o, i0) :: is'.map fun i => (o, i)) ++ Cake.flattenEdges L := by
        rw [flattenEdges_cons]
        simp
      have hsnd : (Cake.flattenEdges ((o, i0 :: is') :: L)).map (·.2)
          = (i0 :: is') ++ (Cake.flattenEdges L).map (·.2) := by
        rw [flattenEdges_cons, List.map_append, map_snd_pair_map]
      have hinodup2 : ((i0 :: is') ++ (Cake.flattenEdges L).map (·.2)).Nodup := by
        rw [← hsnd]
        exact hinodup
      obtain ⟨hnodup_is, hnodup_L, hdisj⟩ := List.nodup_append.mp hinodup2
      obtain ⟨hi0, hnodup_is'⟩ := List.nodup_cons.mp hnodup_is
      have hkeysnd2 : ((o : Cake.Output) :: L.map (·.1)).Nodup := by
        have hkeymap : (((o, i0 :: is') :: L).map (·.1)) = o :: L.map (·.1) := rfl
        rw [← hkeymap]
        exact hkeysnd
      obtain ⟨ho_notin, hkeysnd'⟩ := List.nodup_cons.mp hkeysnd2
      have hmem_block : ∀ i ∈ i0 :: is',
          ((o : Cake.Output), i) ∈ Cake.flattenEdges ((o, i0 :: is') :: L) := by
        intro i hi
        rw [flattenEdges_cons]
        exact List.mem_append.mpr (.inl (List.mem_map.mpr ⟨i, hi, rfl⟩))
      have hid0 := hmem_block i0 (List.mem_cons_self _ _)
      have hdrv0 : Cake.alreadyDriven dst.edges i0 = false :=
        alreadyDriven_eq_false _ _ (hinew _ hid0)
      have hcyc0 : Cake.reachesWithin dst.edges (dst.transforms.length + 1)
          i0.t_idx o.t_idx = false :=
        reachesWithin_false_of_acyclic hsub hacyc (hsubL _ hid0) _
      have hcon0 := connect_ok dst o i0 (by rw [htrs]; exact hok _ hid0) hdrv0 hcyc0
      have hedge0 : Cake.addEdge dst.edges o i0 = dst.edges ++ [(o, [i0])] :=
        addEdge_new_key _ _ _ (hkeysd (o, i0 :: is') (List.mem_cons_self _ _))
      obtain ⟨dstB, hrepB, htrB, hedB, houtB, hcacheB⟩ := replayEdges_block G hacyc
        is' [i0] dst.edges { dst with edges := Cake.addEdge dst.edges o i0 } o
        htrs (by rw [hedge0])
        (hkeysd (o, i0 :: is') (List.mem_cons_self _ _))
        (by
          intro p hp
          rw [flattenEdges_block_append] at hp
          rcases List.mem_append.mp hp with hp | hp
          · exact hsub p hp
          · rcases List.mem_map.mp hp with ⟨i', hi', rfl⟩
            simp only [List.mem_singleton] at hi'
            subst hi'
            exact hsubL _ hid0)
        (fun i hi => hok _ (hmem_block i (List.mem_cons_of_mem _ hi)))
        (fun i hi => hsubL _ (hmem_block i (List.mem_cons_of_mem _ hi)))
        (by
          intro i hi hbad
          rw [flattenEdges_block_append, List.map_append, map_snd_pair_map] at hbad
          rcases List.mem_append.mp hbad with hb | hb
          · exact hinew _ (hmem_block i (List.mem_cons_of_mem _ hi)) hb
          · simp only [List.mem_singleton] at hb
            subst hb
            exact hi0 hi)
        hnodup_is'
      have hedBfull : dstB.edges = dst.edges ++ [(o, i0 :: is')] := by
        rw [hedB]
        rfl
      obtain ⟨dst', hrep', htr', hed', hout', hcache'⟩ := ih dstB
        (by rw [htrB]; exact htrs)
        (by
          intro q hq
          rw [hedBfull]
          simp only [List.map_append, List.mem_append]
          rintro (hbad | hbad)
          · exact hkeysd q (List.mem_cons_of_mem _ hq) hbad
          · simp only [List.map_cons, List.map_nil, List.mem_singleton] at hbad
            exact ho_notin (hbad ▸ List.mem_map.mpr ⟨q, hq, rfl⟩))
        hkeysnd'
        (fun q hq => hne q (List.mem_cons_of_mem _ hq))
        (fun p hp => hok p (by rw [flattenEdges_cons]; exact List.mem_append.mpr (.inr hp)))
        (by
          intro p hp
          rw [hedBfull, flattenEdges_block_append] at hp
          rcases List.mem_append.mp hp with hp | hp
          · exact hsub p hp
          · rcases List.mem_map.mp hp with ⟨i', hi', rfl⟩
            exact hsubL _ (hmem_block i' hi'))
        (fun p hp => hsubL p (by rw [flattenEdges_cons]; exact List.mem_append.mpr (.inr hp)))
        (by
          intro p hp hbad
          rw [hedBfull, flattenEdges_block_append, List.map_append, map_snd_pair_map] at hbad
          rcases List.mem_append.mp hbad with hb | hb
          · exact hinew p (by rw [flattenEdges_cons]; exact List.mem_append.mpr (.inr hp)) hb
          · exact hdisj hb (List.mem_map.mpr ⟨p, hp, rfl⟩))
        hnodup_L
      refine ⟨dst', ?_, ?_, ?_, ?_, ?_⟩
      · rw [hflat, List.cons_append, Cake.replayEdges, hcon0]
        simp only
        rw [replayEdges_append, hrepB]
        simp only
        exact hrep'
      · rw [htr', htrB]
      · rw [hed', hedBfull]
        simp
      · rw [hout', houtB]
      · rw [hcache', hcacheB]

/-- Reinstalling the resolved descriptors reproduces the original
`MetaTransform` entries when the instance defaults are the descriptor's. -/
theorem map_new_eq_self {T E : Type} :
    ∀ (l : List (Cake.TransformIdx × Cake.MetaTransform T E)),
      (∀ p ∈ l, p.2.input_defaults = p.2.t.input.map (·.2)) →
      (l.map fun p => (p.1, p.2.t)).map (fun q => (q.1, Cake.MetaTransform.new q.2)) = l := by
  intro l
  induction l with
  | nil => intro _; rfl
  | cons p rest ih =>
    intro hall
    obtain ⟨idx, mt⟩ := p
    simp only [List.map_cons]
    rw [metaTransform_new_eq mt (hall _ (List.mem_cons_self _ _)),
      ih fun q hq => hall q (List.mem_cons_of_mem _ hq)]

/-- Restoring the serialized sink list appends it to the graph's outputs;
the `attach_output` port check passes for every consistent sink. -/
theorem replayOutputs_roundtrip {T E : Type} (G : Cake.DST T E) :
    ∀ (l : List (Cake.OutputId × Option Cake.Output)) (dst : Cake.DST T E),
      dst.transforms = G.transforms →
      (∀ q ∈ l, Cake.sinkOk G.transforms q = true) →
      ∃ dst', Cake.replayOutputs dst l = .ok dst' ∧
        dst'.transforms = dst.transforms ∧
        dst'.edges = dst.edges ∧
        dst'.outputs = dst.outputs ++ l ∧
        dst'.cache = dst.cache := by
  intro l
  induction l with
  | nil =>
    intro dst _ _
    exact ⟨dst, rfl, rfl, rfl, by simp, rfl⟩
  | cons q l ih =>
    obtain ⟨oid, mo⟩ := q
    intro dst htrs hall
    have hq := hall _ (List.mem_cons_self _ _)
    cases mo with
    | none =>
      obtain ⟨dst', hrep, h1, h2, h3, h4⟩ :=
        ih { dst with outputs := dst.outputs ++ [(oid, none)] } htrs
          (fun q hq => hall q (List.mem_cons_of_mem _ hq))
      refine ⟨dst', ?_, h1, h2, ?_, h4⟩
      · rw [Cake.replayOutputs]
        simp only [Cake.restoreOutput]
        exact hrep
      · rw [h3]
        simp
    | some o =>
      unfold Cake.sinkOk at hq
      simp only at hq
      cases hT : alookup G.transforms o.t_idx with
      | none => rw [hT] at hq; simp at hq
      | some mt =>
        rw [hT] at hq
        simp only [decide_eq_true_eq] at hq
        have hT' : alookup dst.transforms o.t_idx = some mt := by
          rw [htrs]
          exact hT
        obtain ⟨dst', hrep, h1, h2, h3, h4⟩ :=
          ih { dst with outputs := dst.outputs ++ [(oid, some o)] } htrs
            (fun q hq => hall q (List.mem_cons_of_mem _ hq))
        refine ⟨dst', ?_, h1, h2, ?_, h4⟩
        · rw [Cake.replayOutputs]
          simp only [Cake.restoreOutput, hT', hq, if_true]
          exact hrep
        · rw [h3]
          simp

/-- **C9** (amended).  For a valid graph — invariants 1–5 hold, constants
have the canonical `new_constant` shape, function descriptors resolve to
themselves in the ambient registry, and the per-instance defaults equal
the descriptor's declared defaults — importing the serialized form
rebuilds the same transforms (functions by name, constants by value), the
same edges and the same output attachments.  (Per-instance default
overrides are *not* serialized and revert to the descriptor's defaults;
the cache is rebuilt empty and is not part of the comparison.) -/
theorem import_export_roundtrip {T E : Type} (G : Cake.DST T E)
    (reg : String → Option (Cake.Transformation T E)) (vn : T → String)
    (h_entries : ∀ p ∈ G.transforms, Cake.entryRoundTrips reg vn p)
    (h_keysnd : (G.edges.map (·.1)).Nodup)
    (h_ne : ∀ q ∈ G.edges, q.2 ≠ [])
    (h_edgeok : ∀ p ∈ Cake.flattenEdges G.edges, Cake.edgeOk G.transforms p = true)
    (h_excl : ((Cake.flattenEdges G.edges).map (·.2)).Nodup)
    (h_acyc : ∀ t, ¬ Relation.TransGen (Cake.edgeRel G.edges) t t)
    (h_sinks : ∀ q ∈ G.outputs, Cake.sinkOk G.transforms q = true) :
    (Cake.importDST reg vn (Cake.serialToDeser (Cake.SerialDST.new G))).toOption.map
        (fun d => (d.transforms, d.edges, d.outputs))
      = some (G.transforms, G.edges, G.outputs) := by
  have harg : (Cake.serialToDeser (Cake.SerialDST.new G)).transforms
      = (G.transforms.map fun p => (p.1, Cake.SerialTransform.new p.2.t)).map
          (fun p => (p.1, p.2.toDeser)) := rfl
  have hres := resolveTransforms_roundtrip reg vn G.transforms h_entries
  obtain ⟨ht1, he1, ho1⟩ := buildTransforms_spec
    (G.transforms.map fun p => (p.1, p.2.t)) (Cake.DST.new T E)
  have htrs1 : ((G.transforms.map fun p => (p.1, p.2.t)).foldl
      (fun d p => Cake.addTransformWithIdx d p.1 p.2) (Cake.DST.new T E)).transforms
      = G.transforms := by
    rw [ht1]
    have := map_new_eq_self G.transforms (fun p hp => (h_entries p hp).1)
    simpa [Cake.DST.new] using this
  obtain ⟨dst2, hrep2, htr2, hed2, hout2, hcache2⟩ := replayEdges_roundtrip G h_acyc
    G.edges
    ((G.transforms.map fun p => (p.1, p.2.t)).foldl
      (fun d p => Cake.addTransformWithIdx d p.1 p.2) (Cake.DST.new T E))
    htrs1
    (by
      intro q hq
      rw [he1]
      simp [Cake.DST.new])
    h_keysnd h_ne h_edgeok
    (by
      intro p hp
      rw [he1] at hp
      simp [Cake.DST.new, Cake.flattenEdges] at hp)
    (fun p hp => hp)
    (by
      intro p hp
      rw [he1]
      simp [Cake.DST.new, Cake.flattenEdges])
    h_excl
  obtain ⟨dst3, hrep3, htr3, hed3, hout3, hcache3⟩ := replayOutputs_roundtrip G
    G.outputs dst2 (by rw [htr2]; exact htrs1) h_sinks
  unfold Cake.importDST
  rw [harg, hres]
  simp only
  rw [show (Cake.serialToDeser (Cake.SerialDST.new G)).edges = Cake.flattenEdges G.edges from rfl]
  rw [hrep2]
  simp only
  rw [show (Cake.serialToDeser (Cake.SerialDST.new G)).outputs = G.outputs from rfl]
  rw [hrep3]
  have e1 : dst3.transforms = G.transforms := by rw [htr3, htr2, htrs1]
  have e2 : dst3.edges = G.edges := by
    rw [hed3, hed2, he1]
    rfl
  have e3 : dst3.outputs = G.outputs := by
    rw [hout3, hout2, ho1]
    rfl
  simp [Except.toOption, e1, e2, e3]

/-- **C9** (counterexample).  `G0` is a valid graph whose only transform
had its instance default overridden to `Integer 5`; `SerialDST` does not
serialize instance defaults, so the import rebuilds the descriptor's
default `Integer 0` and the round trip is not structurally equal to `G0`:
the claimed "same default values" fails. -/
theorem roundtrip_drops_default_overrides_cex :
    Cake.importDST regS1 AlgoContent.variant_name
        (Cake.serialToDeser (Cake.SerialDST.new G0)) = .ok G0import ∧
    defaultsOf G0import ⟨1⟩ ≠ defaultsOf G0 ⟨1⟩ :=
  ⟨rfl, by decide⟩

/-- A relation that strictly increases a rank has no transitive cycle. -/
theorem transGen_irrefl_of_rank {α : Type} (r : α → α → Prop) (rank : α → Nat)
    (h : ∀ a b, r a b → rank a < rank b) (a : α) : ¬ Relation.TransGen r a a := by
  intro hT
  have hlt : ∀ {x y : α}, Relation.TransGen r x y → rank x < rank y := by
    intro x y hxy
    induction hxy with
    | single h1 => exact h _ _ h1
    | tail _ h1 ih => exact ih.trans (h _ _ h1)
  exact absurd (hlt hT) (lt_irrefl _)

theorem import_export_roundtrip_witness :
    (Cake.importDST regS1 AlgoContent.variant_name
        (Cake.serialToDeser (Cake.SerialDST.new dstS1))).toOption.map
        (fun d => (d.transforms, d.edges, d.outputs))
      = some (dstS1.transforms, dstS1.edges, dstS1.outputs) :=
  import_export_roundtrip dstS1 regS1 AlgoContent.variant_name
    (by
      intro p hp
      simp only [dstS1, List.mem_cons, List.not_mem_nil, or_false] at hp
      rcases hp with rfl | rfl | rfl | rfl | rfl <;>
        exact ⟨rfl, fun f hf => rfl,
          fun c hc => by simp [get1, plus1, minus1, Cake.MetaTransform.new] at hc⟩)
    (by decide)
    (by decide)
    (by decide)
    (by decide)
    (by
      have hrank : ∀ p ∈ Cake.flattenEdges dstS1.edges,
          p.1.t_idx.id < p.2.t_idx.id := by decide
      intro t
      refine transGen_irrefl_of_rank _ (fun t => t.id) ?_ t
      intro a b hab
      obtain ⟨p, hp, h1, h2⟩ := hab
      subst h1
      subst h2
      exact hrank p hp)
    (by decide)

end Aflak
